import Mathlib

/-!
Verification of the signed-triangle classification engine of the mc859
Steam-sentiment analysis scripts (`entrega-final/equilibrio_fraco.py` and
`entrega-final/encontrar_triangulos.py`).

The scripts build graphs with `networkx.Graph`, whose observable behaviour is
an insertion-ordered dictionary of dictionaries: node keys appear in insertion
order, and each node's neighbour dictionary lists neighbours in the order the
incident edges were first inserted.  The shallow embedding below models that
structure directly as an association list from node identifier (a string, as
in the scripts, which never convert the tokens read from the edge list) to an
insertion-ordered association list of (neighbour, edge attribute) pairs.
-/

/-- Python string comparison on lists of characters: lexicographic by code
point (`Char` order in Lean is exactly code-point order). This models the
`str(u) > str(v)` comparisons of `equilibrio_fraco.py` line 121 and
`tuple(sorted((v, w)))` of `encontrar_triangulos.py` line 141. -/
def charListLt : List Char → List Char → Bool
  | _, [] => false
  | [], _ :: _ => true
  | c :: cs, d :: ds => if c < d then true else if d < c then false else charListLt cs ds

/-- Python `s < t` on strings. -/
def strLt (s t : String) : Bool := charListLt s.data t.data

/-- The observable state of a `networkx.Graph` whose edges carry one data
attribute of type `b` (`sign` in the binarized graph, `weight` in the
weighted sentiment graph): an insertion-ordered adjacency structure. -/
structure AdjGraph (b : Type) where
  adj : List (String × List (String × b))
deriving DecidableEq

/-- First-match lookup in an association list (Python dict access: keys are
unique by construction, and insertion order is preserved). -/
def findAssoc {b : Type} (u : String) : List (String × b) → Option b
  | [] => none
  | kv :: rest => if kv.1 = u then some kv.2 else findAssoc u rest

/-- Python dict assignment `d[v] = x`: replace the value of an existing key in
place, otherwise append the new key at the end. -/
def setAssoc {b : Type} (v : String) (x : b) : List (String × b) → List (String × b)
  | [] => [(v, x)]
  | kv :: rest => if kv.1 = v then (v, x) :: rest else kv :: setAssoc v x rest

/-- Node list of the graph, in insertion order (`G.nodes()`). -/
def AdjGraph.nodes {b : Type} (g : AdjGraph b) : List String := g.adj.map Prod.fst

/-- `networkx.Graph.add_node`: a no-op when the node is already present. -/
def AdjGraph.addNode {b : Type} (g : AdjGraph b) (u : String) : AdjGraph b :=
  if (findAssoc u g.adj).isSome then g else ⟨g.adj ++ [(u, [])]⟩

/-- `networkx.Graph.add_edge(u, v, attr)`: ensure both endpoints are nodes,
then set `adj[u][v] = attr` and `adj[v][u] = attr` (a single self-loop entry
when `u = v`, as in networkx). -/
def AdjGraph.addEdge {b : Type} (g : AdjGraph b) (u v : String) (x : b) : AdjGraph b :=
  let g1 := (g.addNode u).addNode v
  ⟨g1.adj.map (fun kn =>
    (kn.1, if kn.1 = v then setAssoc u x (if kn.1 = u then setAssoc v x kn.2 else kn.2)
           else if kn.1 = u then setAssoc v x kn.2 else kn.2))⟩

/-- The attribute stored on edge (u, v), if that edge exists
(`G[u][v]['sign']` respectively `data['weight']`). -/
def AdjGraph.valOf {b : Type} (g : AdjGraph b) (u v : String) : Option b :=
  (findAssoc u g.adj).bind (fun l => findAssoc v l)

/-- `G.has_edge(u, v)`. -/
def AdjGraph.hasEdgeB {b : Type} (g : AdjGraph b) (u v : String) : Bool :=
  (g.valOf u v).isSome

/-- Neighbour identifiers of `u` in adjacency (insertion) order
(`list(G.neighbors(u))`). -/
def AdjGraph.nbrs {b : Type} (g : AdjGraph b) (u : String) : List String :=
  ((findAssoc u g.adj).getD []).map Prod.fst

/-- The binarized sentiment graph: edge attribute is the sign `+1` or `-1`. -/
abbrev SGraph := AdjGraph Int

/-- The weighted sentiment graph: edge attribute is the real-valued weight. -/
abbrev WGraph := AdjGraph ℚ

/-- The empty graph `nx.Graph()`. -/
def AdjGraph.empty {b : Type} : AdjGraph b := ⟨[]⟩

/-- `itertools.combinations(l, 2)` : all ordered pairs of positions i < j,
keeping the order elements have in `l` (it does NOT sort the pair). -/
def pairs2 {a : Type} : List a → List (a × a)
  | [] => []
  | x :: xs => xs.map (fun y => (x, y)) ++ pairs2 xs

/-- All position-ordered triples i < j < k of a list; used for the
brute-force triangle enumeration the spec compares the global pass against. -/
def triples3 {a : Type} : List a → List (a × a × a)
  | [] => []
  | x :: xs => (pairs2 xs).map (fun p => (x, p.1, p.2)) ++ triples3 xs

/-- The four sign-pattern classes of a triangle. -/
inductive TriClass where
  | ppp
  | ppm
  | pmm
  | mmm
deriving DecidableEq

/-- The classification branch of `equilibrio_fraco.py` lines 128-135:
`product = s1*s2*s3`; if `product == 1` then `+++` when the sum is positive
else `+--`; otherwise `++-` when the sum is positive else `---`. -/
def classify (s1 s2 s3 : Int) : TriClass :=
  if s1 * s2 * s3 = 1 then
    if s1 + s2 + s3 > 0 then TriClass.ppp else TriClass.pmm
  else
    if s1 + s2 + s3 > 0 then TriClass.ppm else TriClass.mmm

/-- The four class counters of the global pass. -/
structure Counts where
  ppp : Nat
  ppm : Nat
  pmm : Nat
  mmm : Nat
deriving DecidableEq

/-- One iteration of the counter update `counts[...] += 1`. -/
def classifyInc (c : Counts) (s1 s2 s3 : Int) : Counts :=
  match classify s1 s2 s3 with
  | TriClass.ppp => ⟨c.ppp + 1, c.ppm, c.pmm, c.mmm⟩
  | TriClass.ppm => ⟨c.ppp, c.ppm + 1, c.pmm, c.mmm⟩
  | TriClass.pmm => ⟨c.ppp, c.ppm, c.pmm + 1, c.mmm⟩
  | TriClass.mmm => ⟨c.ppp, c.ppm, c.pmm, c.mmm + 1⟩

/-- `sum(counts.values())` — the reported total triangle count. -/
def countsTotal (c : Counts) : Nat := c.ppp + c.ppm + c.pmm + c.mmm

/-- The triple arrangements accepted by the global pass of
`equilibrio_fraco.py` lines 112-135, in discovery order: for each node `u`
(insertion order), for each pair `(v, w)` of `combinations(neighbors(u), 2)`
(adjacency order), the candidate closes a triangle when `has_edge(v, w)`,
and is accepted unless `str(u) > str(v) or str(v) > str(w)`. Each accepted
arrangement causes exactly one counter increment. -/
def acceptPair (g : SGraph) (u : String) (vw : String × String) :
    Option (String × String × String) :=
  if g.hasEdgeB vw.1 vw.2 then
    if strLt vw.1 u || strLt vw.2 vw.1 then none
    else some (u, vw.1, vw.2)
  else none

/-- The body of the outer loop for one node `u`: nothing when `u` has fewer
than two neighbours, otherwise the accepted candidates among
`combinations(neighbors_u, 2)`. -/
def nodeTriples (g : SGraph) (u : String) : List (String × String × String) :=
  if (g.nbrs u).length < 2 then []
  else (pairs2 (g.nbrs u)).filterMap (acceptPair g u)

def acceptedTriples (g : SGraph) : List (String × String × String) :=
  g.nodes.flatMap (nodeTriples g)

/-- The sign stored on an edge the pass has already checked to exist
(`G_bin[u][v]['sign']`; the default is never used on those edges). -/
def signVal (g : SGraph) (u v : String) : Int := (g.valOf u v).getD 0

/-- The global triangle pass of `equilibrio_fraco.py` lines 105-135: fold the
counter update over the accepted arrangements in discovery order. -/
def countTriangles (g : SGraph) : Counts :=
  (acceptedTriples g).foldl
    (fun c t => classifyInc c (signVal g t.1 t.2.1) (signVal g t.1 t.2.2)
      (signVal g t.2.1 t.2.2))
    ⟨0, 0, 0, 0⟩

/-- Brute-force triangle count: the number of unordered triples of distinct
mutually adjacent nodes (the spec's independent reference count). -/
def bruteTriangles (g : SGraph) : Nat :=
  (triples3 g.nodes).countP
    (fun t => g.hasEdgeB t.1 t.2.1 && g.hasEdgeB t.1 t.2.2 && g.hasEdgeB t.2.1 t.2.2)

/-- Two signed graphs carry the same set of signed edges and the same node
set (they differ at most in insertion order). -/
def eqvSigned (g1 g2 : SGraph) : Bool :=
  g1.nodes.all (fun u => g2.nodes.contains u) &&
  g2.nodes.all (fun u => g1.nodes.contains u) &&
  g1.nodes.all (fun u => g1.nodes.all (fun v => g1.valOf u v == g2.valOf u v))

/-- The result reported by `equilibrio_fraco.py` lines 146-164: an explicit
"no triangles found" message when the total is zero, otherwise the
frustration proportion `counts['++-'] / total`. -/
inductive BalanceReport where
  | noTriangles
  | frustration (q : ℚ)
deriving DecidableEq

/-- The reporting step of `equilibrio_fraco.py` lines 146-164. -/
def reportWeakBalance (g : SGraph) : BalanceReport :=
  let c := countTriangles g
  let total := countsTotal c
  if total = 0 then BalanceReport.noTriangles
  else BalanceReport.frustration ((c.ppm : ℚ) / (total : ℚ))

/-- The run of `analyze_weak_balance` whose three signed edges a-b, a-c, b-c
(all positive) are inserted in the order a-b, a-c, b-c: node a's adjacency
lists b before c. -/
def gGoodOrder : SGraph :=
  ((AdjGraph.empty.addEdge "a" "b" 1).addEdge "a" "c" 1).addEdge "b" "c" 1

/-- The same signed graph with the first two edges inserted in the other
order: node a's adjacency lists c before b. -/
def gBadOrder : SGraph :=
  ((AdjGraph.empty.addEdge "a" "c" 1).addEdge "a" "b" 1).addEdge "b" "c" 1

/-!  The edge-list loaders.

`analyze_weak_balance` (equilibrio_fraco.py lines 44-68) reads the text file
line by line: the first line is consumed as an `n m` header iff it consists
of exactly two integer tokens (otherwise `f.seek(0)` re-reads it as data);
every following line is whitespace-tokenized, a line of exactly three tokens
`u v w` becomes `G.add_edge(u, v, weight=float(w))`, a nonempty line with a
different token count or an unparseable third token is skipped with a printed
diagnostic, and a whitespace-only line is skipped silently.  The loader below
returns the weighted graph together with the number of diagnostics printed.
-/

/-- Python `line.split()` with no separator: split on runs of whitespace,
discarding empty tokens (leading/trailing whitespace included, so the
`strip()` in the script is immaterial). -/
def splitWSAux : List Char → List Char → List String
  | [], acc => if acc.isEmpty then [] else [String.mk acc.reverse]
  | c :: rest, acc =>
      if c.isWhitespace then
        if acc.isEmpty then splitWSAux rest []
        else String.mk acc.reverse :: splitWSAux rest []
      else splitWSAux rest (c :: acc)

/-- Tokenize a line as Python `str.split()` does. -/
def splitWS (s : String) : List String := splitWSAux s.data []

/-- A nonempty run of decimal digits. -/
def isDigitRun (l : List Char) : Bool := !l.isEmpty && l.all Char.isDigit

/-- Numeric value of a digit run. -/
def natOfDigits (l : List Char) : Nat := l.foldl (fun a c => a * 10 + (c.toNat - 48)) 0

/-- A token accepted by Python `int()`: optional sign followed by a nonempty
digit run (the scripts only feed decimal headers to `int`). -/
def isIntTok (s : String) : Bool :=
  match s.data with
  | [] => false
  | c :: rest => if c == '+' || c == '-' then isDigitRun rest else isDigitRun (c :: rest)

/-- The first line is consumed as a header iff `n, m = map(int, line.split())`
succeeds: exactly two tokens, both integers. -/
def isHeaderLine (s : String) : Bool :=
  match splitWS s with
  | [a, b] => isIntTok a && isIntTok b
  | _ => false

/-- Mantissa of a Python float literal: digits with an optional single
decimal point and at least one digit (`"1"`, `"1."`, `".5"`, `"1.5"`). -/
def parseMantissa (l : List Char) : Option ℚ :=
  let ip := l.takeWhile (fun c => c != '.')
  match l.dropWhile (fun c => c != '.') with
  | [] => if isDigitRun ip then some ((natOfDigits ip : ℚ)) else none
  | _ :: fp =>
      if ip.all Char.isDigit && fp.all Char.isDigit && (!ip.isEmpty || !fp.isEmpty) then
        some ((natOfDigits ip : ℚ) + (natOfDigits fp : ℚ) / ((10 : ℚ) ^ fp.length))
      else none

/-- An optionally signed nonempty digit run (the exponent of a float). -/
def parseSignedDigits (l : List Char) : Option Int :=
  match l with
  | '+' :: rest => if isDigitRun rest then some ((natOfDigits rest : Int)) else none
  | '-' :: rest => if isDigitRun rest then some (-(natOfDigits rest : Int)) else none
  | _ => if isDigitRun l then some ((natOfDigits l : Int)) else none

/-- Scale a mantissa by a decimal exponent. -/
def applyExp (m : ℚ) (e : Int) : ℚ :=
  if 0 ≤ e then m * (10 : ℚ) ^ e.toNat else m / (10 : ℚ) ^ (-e).toNat

/-- Unsigned Python float literal: mantissa with optional `e`/`E` exponent. -/
def parseUnsignedFloat (l : List Char) : Option ℚ :=
  let mant := l.takeWhile (fun c => c != 'e' && c != 'E')
  match l.dropWhile (fun c => c != 'e' && c != 'E') with
  | [] => parseMantissa mant
  | _ :: ex =>
      (parseMantissa mant).bind (fun m =>
        (parseSignedDigits ex).map (fun e => applyExp m e))

/-- The value of `float(w)` on the tokens the scripts feed it, or `none` when
`float` raises `ValueError` (grammar: optional sign, digits with optional
decimal point, optional decimal exponent; the exotic `inf`/`nan`/underscore
forms never occur in the data and are modelled as errors). -/
def parseFloatTok (s : String) : Option ℚ :=
  match s.data with
  | [] => none
  | c :: rest =>
      if c == '+' then parseUnsignedFloat rest
      else if c == '-' then (parseUnsignedFloat rest).map (fun q => -q)
      else parseUnsignedFloat (c :: rest)

/-- One body line of `analyze_weak_balance`'s read loop (lines 57-68): an
exact three-token line adds the edge with its parsed weight (a `ValueError`
from `float` prints the "erro de dados" diagnostic instead); any other
nonempty line prints the "formato inesperado" diagnostic; an empty token list
does nothing.  Returns the updated graph and the number of diagnostics (0 or
1) this line printed. -/
def processLine (g : WGraph) (line : String) : WGraph × Nat :=
  match splitWS line with
  | [u, v, w] =>
      match parseFloatTok w with
      | some q => (g.addEdge u v q, 0)
      | none => (g, 1)
  | [] => (g, 0)
  | _ => (g, 1)

/-- The read loop over the body lines, threading the graph and the number of
diagnostics printed so far. -/
def processLines (g : WGraph) (skipped : Nat) : List String → WGraph × Nat
  | [] => (g, skipped)
  | line :: rest =>
      let gd := processLine g line
      processLines gd.1 (skipped + gd.2) rest

/-- The loader of `analyze_weak_balance` (lines 44-68): try to consume the
first line as an `n m` header; on failure (`ValueError`, or `StopIteration`
on an empty file) `f.seek(0)` restarts the loop at the first line. -/
def loadGraph (ls : List String) : WGraph × Nat :=
  match ls with
  | [] => (AdjGraph.empty, 0)
  | first :: rest =>
      if isHeaderLine first then processLines AdjGraph.empty 0 rest
      else processLines AdjGraph.empty 0 (first :: rest)

/-- The graph part of `load_data` in `encontrar_triangulos.py` (lines 69-87):
`next(f)` drops the first line unconditionally (an empty file makes the
uncaught `StopIteration` escape, modelled as `none`); each remaining line is
unpacked as `u, v, w` (exactly three tokens) and binarized on the fly with
`float(w)` against the thresholds, any parse failure silently skipping the
line; both endpoints are added as nodes before thresholding. -/
def loadDataBin (ls : List String) (posT negT : ℚ) : Option SGraph :=
  match ls with
  | [] => none
  | _ :: rest =>
      some (rest.foldl (fun gb line =>
        match splitWS line with
        | [u, v, w] =>
            match parseFloatTok w with
            | some q =>
                let gb1 := (gb.addNode u).addNode v
                if q > posT then gb1.addEdge u v 1
                else if q < negT then gb1.addEdge u v (-1)
                else gb1
            | none => gb
        | _ => gb) AdjGraph.empty)

/-! Loader lemmas. -/

/-- The lines the read loop actually processes: all lines except a
recognized header. -/
def bodyOf (ls : List String) : List String :=
  match ls with
  | [] => []
  | first :: rest => if isHeaderLine first then rest else first :: rest

/-- A nonempty line the read loop skips with a printed diagnostic: a token
count other than three, or an unparseable weight token. -/
def malformedLine (line : String) : Bool :=
  match splitWS line with
  | [_, _, w] => (parseFloatTok w).isNone
  | [] => false
  | _ => true

/-- A line that contributes an edge: exactly three tokens with a parseable
weight. -/
def edgeLine (line : String) : Bool :=
  match splitWS line with
  | [_, _, w] => (parseFloatTok w).isSome
  | [] => false
  | _ => false

/-!  The Binarizer (`analyze_weak_balance` lines 79-93): iterate over
`G_sentiment.edges(data=True)`, add both endpoints as nodes, then add a
signed edge `+1` when `weight > pos_thresh`, `-1` when `weight < neg_thresh`,
and nothing otherwise. -/

/-- `networkx.Graph.edges`: for each node in insertion order, yield its
adjacency entries whose other endpoint has not already been visited as a
source node (each unordered edge is reported exactly once, self-loops
included). -/
def edgesAux {b : Type} : List (String × List (String × b)) → List String →
    List (String × String × b)
  | [], _ => []
  | kn :: rest, seen =>
      kn.2.filterMap (fun vs => if vs.1 ∈ seen then none else some (kn.1, vs.1, vs.2)) ++
        edgesAux rest (kn.1 :: seen)

/-- `G.edges(data=True)` of the weighted graph. -/
def AdjGraph.edgeList {b : Type} (g : AdjGraph b) : List (String × String × b) :=
  edgesAux g.adj []

/-- The body of the binarization loop for a single weighted edge. -/
def binStep (posT negT : ℚ) (gb : SGraph) (e : String × String × ℚ) : SGraph :=
  if e.2.2 > posT then ((gb.addNode e.1).addNode e.2.1).addEdge e.1 e.2.1 1
  else if e.2.2 < negT then ((gb.addNode e.1).addNode e.2.1).addEdge e.1 e.2.1 (-1)
  else (gb.addNode e.1).addNode e.2.1

/-- The Binarizer: fold the loop body over the weighted edge list starting
from `nx.Graph()`. -/
def binarize (g : WGraph) (posT negT : ℚ) : SGraph :=
  g.edgeList.foldl (binStep posT negT) AdjGraph.empty

/-- The weighted-edge entry `e` is an edge between the unordered pair
{a, c}. -/
abbrev touchesPair {b : Type} (e : String × String × b) (a c : String) : Prop :=
  (a = e.1 ∧ c = e.2.1) ∨ (a = e.2.1 ∧ c = e.1)

/-- A weighted graph consisting of a single isolated node. -/
def wIsolated : WGraph := AdjGraph.empty.addNode "x"

/-- A weighted graph with one edge of weight 0. -/
def wOverlap : WGraph := AdjGraph.empty.addEdge "a" "b" 0

/-- An ordinary two-edge weighted graph for the C4 witness. -/
def wExample : WGraph := (AdjGraph.empty.addEdge "a" "b" 5).addEdge "b" "c" (-7)

/-- A weighted graph with one edge of weight -1; run against the overlapping
thresholds pos_threshold = -1, neg_threshold = 1 the weight equals
pos_threshold. -/
def wEqual : WGraph := AdjGraph.empty.addEdge "a" "b" (-1)

/-- A weighted graph with one edge of weight 3/2; run against the scripts'
thresholds pos_threshold = 3/2, neg_threshold = -3/2 the weight equals
pos_threshold. -/
def wBoundary : WGraph := AdjGraph.empty.addEdge "a" "b" (3/2)

/-- `(t.1, t.2.1, t.2.2)` is one of the six arrangements of `(a, b, c)`. -/
def isArrangement (t : String × String × String) (a b c : String) : Bool :=
  (t.1 == a && t.2.1 == b && t.2.2 == c) ||
  (t.1 == a && t.2.1 == c && t.2.2 == b) ||
  (t.1 == b && t.2.1 == a && t.2.2 == c) ||
  (t.1 == b && t.2.1 == c && t.2.2 == a) ||
  (t.1 == c && t.2.1 == a && t.2.2 == b) ||
  (t.1 == c && t.2.1 == b && t.2.2 == a)

/-- A signed graph with one frustrated triangle: r-a and r-b positive, a-b
negative. -/
def gFrustrated : SGraph :=
  ((AdjGraph.empty.addEdge "r" "a" 1).addEdge "r" "b" 1).addEdge "a" "b" (-1)

/-!  LocalTriangleSearch: `find_frustrated_triangles` of
`encontrar_triangulos.py` (lines 99-174). -/

/-- What the local search exposes: the reported total `frustrated_count` and
the triangles actually printed (the first `limit` found, as pairs (v, w)). -/
structure LocalSearchResult where
  frustratedCount : Nat
  printed : List (String × String)
deriving DecidableEq

/-- `tuple(sorted((v, w)))`. -/
def sortPair (v w : String) : String × String := if strLt w v then (w, v) else (v, w)

/-- The frustration test of line 152:
`s_uv * s_uw * s_vw == -1 and s_uv + s_uw + s_vw == 1`. -/
def isFrust (g : SGraph) (root v w : String) : Bool :=
  decide (signVal g root v * signVal g root w * signVal g v w = -1 ∧
    signVal g root v + signVal g root w + signVal g v w = 1)

/-- The candidate pairs (v, w) scanned by the nested loops of lines 124-138,
in scan order: v over the neighbours of the root, w over the neighbours of v
with `w != root`, `w != v`, and `has_edge(root, w)`. -/
def localCandidates (g : SGraph) (root : String) : List (String × String) :=
  (g.nbrs root).flatMap (fun v =>
    (g.nbrs v).filterMap (fun w =>
      if w = root ∨ w = v then none
      else if g.hasEdgeB root w then some (v, w) else none))

/-- The body of the scan, threading `seen_pairs`, `frustrated_count` and the
printed list (lines 140-168): a candidate whose sorted pair was already seen
is skipped; otherwise the pair is recorded and, when the frustration test
passes, the count is incremented and the triangle printed while the count is
within the limit. -/
def localLoop (g : SGraph) (root : String) (limit : Nat) :
    List (String × String) → List (String × String) → LocalSearchResult →
      LocalSearchResult
  | [], _, acc => acc
  | vw :: rest, seen, acc =>
      if sortPair vw.1 vw.2 ∈ seen then localLoop g root limit rest seen acc
      else if isFrust g root vw.1 vw.2 then
        localLoop g root limit rest (sortPair vw.1 vw.2 :: seen)
          ⟨acc.frustratedCount + 1,
            if acc.frustratedCount + 1 ≤ limit then acc.printed ++ [vw]
            else acc.printed⟩
      else localLoop g root limit rest (sortPair vw.1 vw.2 :: seen) acc

/-- `find_frustrated_triangles(G_bin, id_to_name, root, limit)`: early return
when the root is not in the graph or has fewer than two neighbours,
otherwise the scan. -/
def find_frustrated_triangles (g : SGraph) (root : String) (limit : Nat) :
    LocalSearchResult :=
  if root ∉ g.nodes then ⟨0, []⟩
  else if (g.nbrs root).length < 2 then ⟨0, []⟩
  else localLoop g root limit (localCandidates g root) [] ⟨0, []⟩

/-- The elements of a list that are new relative to an accumulating seen
set, in first-occurrence order (the footprint of a seen-set loop). -/
def newFirsts {a : Type} [DecidableEq a] : List a → List a → List a
  | [], _ => []
  | x :: xs, seen =>
      if x ∈ seen then newFirsts xs seen else x :: newFirsts xs (x :: seen)

/-- The `++-` sign multiset: exactly one of the three signs is negative. -/
abbrev frustSpec (s1 s2 s3 : Int) : Prop :=
  (s1 = 1 ∧ s2 = 1 ∧ s3 = -1) ∨ (s1 = 1 ∧ s2 = -1 ∧ s3 = 1) ∨
    (s1 = -1 ∧ s2 = 1 ∧ s3 = 1)

/-- The triangle {root, p.1, p.2} exists and is frustrated. -/
abbrev frustPairCond (g : SGraph) (root : String) (p : String × String) : Prop :=
  p.1 ≠ root ∧ p.2 ≠ root ∧ g.hasEdgeB root p.1 = true ∧
    g.hasEdgeB root p.2 = true ∧ g.hasEdgeB p.1 p.2 = true ∧
    frustSpec (signVal g root p.1) (signVal g root p.2) (signVal g p.1 p.2)

/-- Brute-force enumeration of the frustrated triangles through `root`: every
unordered pair of distinct nodes (in canonical sorted form) whose triangle
with the root exists and classifies as `++-`. -/
def bruteFrustratedPairs (g : SGraph) (root : String) : List (String × String) :=
  ((pairs2 g.nodes).map (fun p => sortPair p.1 p.2)).filter
    (fun p => decide (frustPairCond g root p))

/-- C1: the global triangle pass does NOT count every triangle exactly once.
On the signed graph with nodes a, b, c, all three edges present (signs +1)
and inserted in the order a-c, a-b, b-c, the four class counters sum to 0,
while the brute-force enumeration of adjacent triples finds 1 triangle: the
acceptance test `str(u) > str(v) or str(v) > str(w)` assumes
`combinations(neighbors(u), 2)` yields each pair in sorted order, but the
pair comes in adjacency-insertion order (c before b), so the only arrangement
with `u` minimal is rejected and the triangle is never counted. -/
theorem c1_global_pass_undercounts :
    countsTotal (countTriangles gBadOrder) = 0 ∧ bruteTriangles gBadOrder = 1 := by
  decide

/-- C2: the global counts are not invariant under the edge insertion order.
`gGoodOrder` and `gBadOrder` carry the same node set and the same signed
edges, yet the pass counts 1 triangle on the first and 0 on the second. -/
theorem c2_counts_depend_on_insertion_order :
    eqvSigned gGoodOrder gBadOrder = true ∧
      countsTotal (countTriangles gGoodOrder) = 1 ∧
      countsTotal (countTriangles gBadOrder) = 0 := by
  decide

/-- C3: on signs drawn from {+1, -1} the classification branch computes the
multiset of the three signs: `+++` iff all three are +1, `++-` iff exactly
one is -1, `+--` iff exactly two are -1, `---` iff all three are -1. -/
theorem c3_classify_matches_sign_multiset (s1 s2 s3 : Int)
    (h1 : s1 = 1 ∨ s1 = -1) (h2 : s2 = 1 ∨ s2 = -1) (h3 : s3 = 1 ∨ s3 = -1) :
    (classify s1 s2 s3 = TriClass.ppp ↔ s1 = 1 ∧ s2 = 1 ∧ s3 = 1) ∧
    (classify s1 s2 s3 = TriClass.ppm ↔
      ((s1 = -1 ∧ s2 = 1 ∧ s3 = 1) ∨ (s1 = 1 ∧ s2 = -1 ∧ s3 = 1) ∨
        (s1 = 1 ∧ s2 = 1 ∧ s3 = -1))) ∧
    (classify s1 s2 s3 = TriClass.pmm ↔
      ((s1 = 1 ∧ s2 = -1 ∧ s3 = -1) ∨ (s1 = -1 ∧ s2 = 1 ∧ s3 = -1) ∨
        (s1 = -1 ∧ s2 = -1 ∧ s3 = 1))) ∧
    (classify s1 s2 s3 = TriClass.mmm ↔ s1 = -1 ∧ s2 = -1 ∧ s3 = -1) := by
  rcases h1 with h1 | h1 <;> rcases h2 with h2 | h2 <;> rcases h3 with h3 | h3 <;>
    subst h1 <;> subst h2 <;> subst h3 <;> decide

/-- Witness for C3 at the concrete sign triple (+1, +1, -1). -/
theorem c3_classify_matches_sign_multiset_witness :
    classify 1 1 (-1) = TriClass.ppm :=
  (c3_classify_matches_sign_multiset 1 1 (-1) (Or.inl rfl) (Or.inl rfl)
    (Or.inr rfl)).2.1.mpr (Or.inr (Or.inr ⟨rfl, rfl, rfl⟩))

/-- C6: when the global pass finds no triangle the script reports the
explicit "no triangles" outcome and never forms the quotient; when the total
is positive it reports exactly `counts['++-'] / total`. -/
theorem c6_frustration_guard (g : SGraph) :
    (countsTotal (countTriangles g) = 0 →
      reportWeakBalance g = BalanceReport.noTriangles) ∧
    (countsTotal (countTriangles g) ≠ 0 →
      reportWeakBalance g =
        BalanceReport.frustration
          (((countTriangles g).ppm : ℚ) / (countsTotal (countTriangles g) : ℚ))) := by
  constructor
  · intro h
    unfold reportWeakBalance
    simp [h]
  · intro h
    unfold reportWeakBalance
    simp [h]

/-- Witness for C6: the empty graph reports "no triangles"; the one-triangle
graph `gGoodOrder` (total 1) reports the quotient, distinguishing a genuine
ratio (here 0/1) from the no-triangle outcome. -/
theorem c6_frustration_guard_witness :
    reportWeakBalance AdjGraph.empty = BalanceReport.noTriangles ∧
      reportWeakBalance gGoodOrder =
        BalanceReport.frustration
          (((countTriangles gGoodOrder).ppm : ℚ) /
            (countsTotal (countTriangles gGoodOrder) : ℚ)) :=
  ⟨(c6_frustration_guard AdjGraph.empty).1 (by decide),
   (c6_frustration_guard gGoodOrder).2 (by decide)⟩

/-! Basic lemmas about the dict operations of the embedding. -/

theorem findAssoc_setAssoc {b : Type} (u v : String) (x : b) (l : List (String × b)) :
    findAssoc u (setAssoc v x l) = if v = u then some x else findAssoc u l := by
  induction l with
  | nil => simp [setAssoc, findAssoc]
  | cons kv rest ih =>
      by_cases hk : kv.1 = v
      · by_cases h : v = u <;> simp [setAssoc, findAssoc, hk, h]
      · by_cases h : kv.1 = u
        · have hvu : ¬ v = u := fun hvu => hk (hvu ▸ h)
          have huv : ¬ u = v := fun huv => hvu huv.symm
          simp [setAssoc, findAssoc, hk, h, hvu, huv]
        · simp [setAssoc, findAssoc, hk, h, ih]

theorem findAssoc_append {b : Type} (u : String) (l1 l2 : List (String × b)) :
    findAssoc u (l1 ++ l2) =
      if (findAssoc u l1).isSome then findAssoc u l1 else findAssoc u l2 := by
  induction l1 with
  | nil => simp [findAssoc]
  | cons kv rest ih =>
      by_cases h : kv.1 = u <;> simp [findAssoc, h, ih]

theorem findAssoc_eq_none_iff {b : Type} (u : String) (l : List (String × b)) :
    findAssoc u l = none ↔ u ∉ l.map Prod.fst := by
  induction l with
  | nil => simp [findAssoc]
  | cons kv rest ih =>
      by_cases h : kv.1 = u
      · subst h
        simp [findAssoc]
      · rw [show findAssoc u (kv :: rest) = if kv.1 = u then some kv.2 else findAssoc u rest
          from rfl]
        rw [if_neg h, ih, List.map_cons]
        constructor
        · intro hn hm
          rcases List.mem_cons.mp hm with hm | hm
          · exact h hm.symm
          · exact hn hm
        · intro hm hmem
          exact hm (List.mem_cons_of_mem _ hmem)

theorem findAssoc_mem {b : Type} {u : String} {l : List (String × b)} {x : b}
    (h : findAssoc u l = some x) : (u, x) ∈ l := by
  induction l with
  | nil => simp [findAssoc] at h
  | cons kv rest ih =>
      by_cases hk : kv.1 = u
      · simp [findAssoc, hk] at h
        cases kv
        simp_all
      · simp [findAssoc, hk] at h
        exact List.mem_cons_of_mem _ (ih h)

theorem findAssoc_mapVal {b c : Type} (u : String) (f : String → b → c)
    (l : List (String × b)) :
    findAssoc u (l.map (fun kn => (kn.1, f kn.1 kn.2))) = (findAssoc u l).map (f u) := by
  induction l with
  | nil => simp [findAssoc]
  | cons kv rest ih =>
      by_cases h : kv.1 = u <;> simp [findAssoc, h, ih]

theorem findAssoc_addNode {b : Type} (g : AdjGraph b) (u a : String) :
    findAssoc a (g.addNode u).adj =
      if a = u then some ((findAssoc a g.adj).getD []) else findAssoc a g.adj := by
  unfold AdjGraph.addNode
  rcases hu : findAssoc u g.adj with _ | lu
  · rw [if_neg (by simp [hu])]
    rw [show (⟨g.adj ++ [(u, [])]⟩ : AdjGraph b).adj = g.adj ++ [(u, [])] from rfl]
    rw [findAssoc_append]
    by_cases h : a = u
    · subst h
      simp [hu, findAssoc]
    · rcases hs : findAssoc a g.adj with _ | l
      · simp [hs, findAssoc, h]
        exact fun hc => h hc.symm
      · simp [hs]
  · rw [if_pos (by simp [hu])]
    by_cases h : a = u
    · subst h
      simp [hu]
    · simp [h]

theorem mem_nodes_addNode {b : Type} (g : AdjGraph b) (u a : String) :
    a ∈ (g.addNode u).nodes ↔ a ∈ g.nodes ∨ a = u := by
  constructor
  · intro h
    by_cases hau : a = u
    · exact Or.inr hau
    · left
      rcases hm : findAssoc a (g.addNode u).adj with _ | l
      · rw [findAssoc_eq_none_iff] at hm
        exact absurd h hm
      · rw [findAssoc_addNode, if_neg hau] at hm
        have := findAssoc_mem hm
        exact List.mem_map_of_mem Prod.fst this
  · intro h
    rcases h with h | h
    · rcases hm : findAssoc a (g.addNode u).adj with _ | l
      · rw [findAssoc_addNode] at hm
        by_cases hau : a = u
        · simp [hau] at hm
        · rw [if_neg hau] at hm
          rw [findAssoc_eq_none_iff] at hm
          exact absurd h hm
      · have := findAssoc_mem hm
        exact List.mem_map_of_mem Prod.fst this
    · subst h
      rcases hm : findAssoc a (g.addNode a).adj with _ | l
      · rw [findAssoc_addNode, if_pos rfl] at hm
        simp at hm
      · have := findAssoc_mem hm
        exact List.mem_map_of_mem Prod.fst this

theorem findAssoc_getD_bind {b : Type} (o : Option (List (String × b))) (c : String) :
    findAssoc c (o.getD []) = o.bind (fun l => findAssoc c l) := by
  cases o <;> simp [findAssoc]

theorem findAssoc_addNode2 {b : Type} (g : AdjGraph b) (u v a : String) :
    findAssoc a ((g.addNode u).addNode v).adj =
      if a = u ∨ a = v then some ((findAssoc a g.adj).getD []) else findAssoc a g.adj := by
  rw [findAssoc_addNode, findAssoc_addNode]
  by_cases hv : a = v
  · by_cases hu : a = u
    · simp [hu, hv]
    · simp [hu, hv]
      rw [if_neg (fun h => hu (hv.trans h))]
  · by_cases hu : a = u <;> simp [hu, hv]

theorem valOf_addNode {b : Type} (g : AdjGraph b) (u a c : String) :
    (g.addNode u).valOf a c = g.valOf a c := by
  unfold AdjGraph.valOf
  rw [findAssoc_addNode]
  by_cases h : a = u
  · rw [if_pos h, Option.some_bind, findAssoc_getD_bind]
  · rw [if_neg h]

theorem findAssoc_addEdge_adj {b : Type} (g : AdjGraph b) (u v a : String) (x : b) :
    findAssoc a (g.addEdge u v x).adj =
      (findAssoc a ((g.addNode u).addNode v).adj).map (fun l =>
        if a = v then setAssoc u x (if a = u then setAssoc v x l else l)
        else if a = u then setAssoc v x l else l) :=
  findAssoc_mapVal a
    (fun k l => if k = v then setAssoc u x (if k = u then setAssoc v x l else l)
      else if k = u then setAssoc v x l else l) ((g.addNode u).addNode v).adj

theorem map_fst_mapVal {b c : Type} (f : String → b → c) (l : List (String × b)) :
    (l.map (fun kn => (kn.1, f kn.1 kn.2))).map Prod.fst = l.map Prod.fst := by
  induction l with
  | nil => rfl
  | cons kv rest ih => simp [ih]

theorem nodes_addEdge {b : Type} (g : AdjGraph b) (u v : String) (x : b) :
    (g.addEdge u v x).nodes = ((g.addNode u).addNode v).nodes :=
  map_fst_mapVal
    (fun k l => if k = v then setAssoc u x (if k = u then setAssoc v x l else l)
      else if k = u then setAssoc v x l else l) ((g.addNode u).addNode v).adj

theorem mem_nodes_addEdge {b : Type} (g : AdjGraph b) (u v a : String) (x : b) :
    a ∈ (g.addEdge u v x).nodes ↔ a ∈ g.nodes ∨ a = u ∨ a = v := by
  rw [nodes_addEdge, mem_nodes_addNode, mem_nodes_addNode]
  tauto

/-- The effect of `add_edge` on edge lookups: the inserted pair gets the new
attribute (in both orientations), every other pair is untouched. -/
theorem valOf_addEdge {b : Type} (g : AdjGraph b) (u v a c : String) (x : b) :
    (g.addEdge u v x).valOf a c =
      if (a = u ∧ c = v) ∨ (a = v ∧ c = u) then some x else g.valOf a c := by
  unfold AdjGraph.valOf
  rw [findAssoc_addEdge_adj, findAssoc_addNode2]
  by_cases hav : a = v
  · by_cases hau : a = u
    · rw [if_pos (Or.inl hau), Option.map_some', Option.some_bind, if_pos hav, if_pos hau,
        findAssoc_setAssoc, findAssoc_setAssoc]
      by_cases hcu : u = c
      · rw [if_pos hcu]
        rw [if_pos (Or.inl ⟨hau, by rw [← hav, hau, hcu]⟩)]
      · rw [if_neg hcu]
        by_cases hcv : v = c
        · rw [if_pos hcv, if_pos (Or.inl ⟨hau, hcv.symm⟩)]
        · rw [if_neg hcv,
            if_neg (by
              rintro (⟨h1, h2⟩ | ⟨h1, h2⟩)
              · exact hcv h2.symm
              · exact hcu h2.symm),
            findAssoc_getD_bind]
    · rw [if_pos (Or.inr hav), Option.map_some', Option.some_bind, if_pos hav, if_neg hau,
        findAssoc_setAssoc]
      by_cases hcu : u = c
      · rw [if_pos hcu, if_pos (Or.inr ⟨hav, hcu.symm⟩)]
      · rw [if_neg hcu,
          if_neg (by
            rintro (⟨h1, h2⟩ | ⟨h1, h2⟩)
            · exact hau h1
            · exact hcu h2.symm),
          findAssoc_getD_bind]
  · by_cases hau : a = u
    · rw [if_pos (Or.inl hau), Option.map_some', Option.some_bind, if_neg hav, if_pos hau,
        findAssoc_setAssoc]
      by_cases hcv : v = c
      · rw [if_pos hcv, if_pos (Or.inl ⟨hau, hcv.symm⟩)]
      · rw [if_neg hcv,
          if_neg (by
            rintro (⟨h1, h2⟩ | ⟨h1, h2⟩)
            · exact hcv h2.symm
            · exact hav h1),
          findAssoc_getD_bind]
    · rw [if_neg (by
          rintro (h | h)
          · exact hau h
          · exact hav h),
        if_neg (by
          rintro (⟨h1, h2⟩ | ⟨h1, h2⟩)
          · exact hau h1
          · exact hav h1)]
      rcases hs : findAssoc a g.adj with _ | l
      · rfl
      · rw [Option.map_some', Option.some_bind, if_neg hav, if_neg hau, Option.some_bind]

theorem loadGraph_eq_processLines (ls : List String) :
    loadGraph ls = processLines AdjGraph.empty 0 (bodyOf ls) := by
  rcases ls with _ | ⟨first, rest⟩
  · rfl
  · unfold loadGraph bodyOf
    by_cases h : isHeaderLine first <;> simp [h, processLines]

theorem loadGraph_cons (first : String) (rest : List String) :
    loadGraph (first :: rest) =
      if isHeaderLine first then processLines AdjGraph.empty 0 rest
      else processLines AdjGraph.empty 0 (first :: rest) := rfl

theorem bodyOf_nil : bodyOf [] = [] := rfl

theorem bodyOf_cons (first : String) (rest : List String) :
    bodyOf (first :: rest) = if isHeaderLine first then rest else first :: rest := rfl

theorem processLine_cases (g : WGraph) (line : String) :
    (∃ u v w q, splitWS line = [u, v, w] ∧ parseFloatTok w = some q ∧
      processLine g line = (g.addEdge u v q, 0)) ∨
    (processLine g line = (g, if malformedLine line then 1 else 0)) := by
  unfold processLine malformedLine
  rcases hsp : splitWS line with _ | ⟨t1, _ | ⟨t2, _ | ⟨t3, _ | ts⟩⟩⟩
  · right; rfl
  · right; rfl
  · right; rfl
  · rcases hf : parseFloatTok t3 with _ | q
    · right; simp [hf]
    · left; exact ⟨t1, t2, t3, q, rfl, hf, by simp [hf]⟩
  · right; rfl

theorem processLine_snd (g : WGraph) (line : String) :
    (processLine g line).2 = if malformedLine line then 1 else 0 := by
  rcases processLine_cases g line with ⟨u, v, w, q, hsp, hf, hpl⟩ | hpl
  · rw [hpl]
    unfold malformedLine
    rw [hsp]
    simp [hf]
  · rw [hpl]

theorem processLine_not_edge (g : WGraph) (line : String) (h : edgeLine line = false) :
    (processLine g line).1 = g := by
  rcases processLine_cases g line with ⟨u, v, w, q, hsp, hf, hpl⟩ | hpl
  · unfold edgeLine at h
    rw [hsp] at h
    simp [hf] at h
  · rw [hpl]

theorem processLines_snd (ls : List String) :
    ∀ (g : WGraph) (k : Nat), (processLines g k ls).2 = k + ls.countP malformedLine := by
  induction ls with
  | nil => intro g k; simp [processLines]
  | cons line rest ih =>
      intro g k
      unfold processLines
      rw [ih, List.countP_cons, processLine_snd]
      by_cases h : malformedLine line <;> simp [h] <;> try omega

theorem processLines_cons (g : WGraph) (k : Nat) (line : String) (rest : List String) :
    processLines g k (line :: rest) =
      processLines (processLine g line).1 (k + (processLine g line).2) rest := rfl

theorem processLines_fst_filter (ls : List String) :
    ∀ (g : WGraph) (k k' : Nat),
      (processLines g k ls).1 = (processLines g k' (ls.filter edgeLine)).1 := by
  induction ls with
  | nil => intro g k k'; rfl
  | cons line rest ih =>
      intro g k k'
      rw [processLines_cons]
      by_cases h : edgeLine line
      · rw [List.filter_cons_of_pos h, processLines_cons]
        exact ih _ _ _
      · rw [List.filter_cons_of_neg (by simp [h]),
          processLine_not_edge g line (by simp [h])]
        exact ih _ _ _

theorem hasEdgeB_processLines_persist (ls : List String) :
    ∀ (g : WGraph) (k : Nat) (a c : String), g.hasEdgeB a c = true →
      (processLines g k ls).1.hasEdgeB a c = true := by
  induction ls with
  | nil => intro g k a c h; exact h
  | cons line rest ih =>
      intro g k a c h
      unfold processLines
      apply ih
      rcases processLine_cases g line with ⟨u, v, w, q, hsp, hf, hpl⟩ | hpl
      · rw [hpl]
        unfold AdjGraph.hasEdgeB at h ⊢
        rw [valOf_addEdge]
        by_cases hcond : (a = u ∧ c = v) ∨ (a = v ∧ c = u)
        · rw [if_pos hcond]; rfl
        · rw [if_neg hcond]; exact h
      · rw [hpl]; exact h

theorem processLines_mem_edge (ls : List String) :
    ∀ (g : WGraph) (k : Nat) (line : String) (u v w : String), line ∈ ls →
      splitWS line = [u, v, w] → (parseFloatTok w).isSome = true →
      (processLines g k ls).1.hasEdgeB u v = true := by
  induction ls with
  | nil => intro g k line u v w h; simp at h
  | cons line0 rest ih =>
      intro g k line u v w hmem hsp hf
      rcases List.mem_cons.mp hmem with hm | hm
      · subst hm
        rcases hq : parseFloatTok w with _ | q
        · rw [hq] at hf; simp at hf
        · rw [processLines_cons,
            show processLine g line = (g.addEdge u v q, 0) by
              simp only [processLine, hsp, hq]]
          apply hasEdgeB_processLines_persist
          unfold AdjGraph.hasEdgeB
          rw [valOf_addEdge, if_pos (Or.inl ⟨rfl, rfl⟩)]
          rfl
      · rw [processLines_cons]
        exact ih _ _ line u v w hm hsp hf

/-- C7 counterexample: the loader of `encontrar_triangulos.py` executes
`next(f)` unconditionally, so with an input whose first line is a well-formed
edge (and not parseable as a two-integer header) that edge is silently
dropped, while the loader of `equilibrio_fraco.py` re-reads the line and
loads the edge. -/
theorem c7_local_loader_always_skips_first_line :
    isHeaderLine "a b 2.0" = false ∧
      loadDataBin ["a b 2.0"] 1 (-1) = some AdjGraph.empty ∧
      (loadGraph ["a b 2.0"]).1.hasEdgeB "a" "b" = true := by
  refine ⟨by decide, rfl, by decide⟩

/-- C7 (amended to the `analyze_weak_balance` loader): the first line is
consumed as a header exactly when it parses as two whitespace-separated
integers; otherwise reading restarts at the first line, and in particular a
well-formed edge written on line one ends up in the graph. -/
theorem c7_header_skipped_iff_parseable (first : String) (rest : List String) :
    (isHeaderLine first = true →
      loadGraph (first :: rest) = processLines AdjGraph.empty 0 rest) ∧
    (isHeaderLine first = false →
      loadGraph (first :: rest) = processLines AdjGraph.empty 0 (first :: rest)) ∧
    (∀ u v w : String, isHeaderLine first = false → splitWS first = [u, v, w] →
      (parseFloatTok w).isSome = true →
      (loadGraph (first :: rest)).1.hasEdgeB u v = true) := by
  refine ⟨?_, ?_, ?_⟩
  · intro h
    rw [loadGraph_cons, if_pos h]
  · intro h
    rw [loadGraph_cons, if_neg (by simp [h])]
  · intro u v w h hsp hf
    rw [loadGraph_eq_processLines]
    apply processLines_mem_edge _ _ _ first u v w _ hsp hf
    rw [bodyOf_cons, if_neg (by simp [h])]
    exact List.mem_cons_self _ _

/-- Witness for C7: a two-integer header is skipped; a non-header edge line
in first position is loaded. -/
theorem c7_header_skipped_iff_parseable_witness :
    loadGraph ["3 2", "a b 2.0"] = processLines AdjGraph.empty 0 ["a b 2.0"] ∧
      (loadGraph ["a b 2.0", "zz"]).1.hasEdgeB "a" "b" = true :=
  ⟨(c7_header_skipped_iff_parseable "3 2" ["a b 2.0"]).1 (by decide),
   (c7_header_skipped_iff_parseable "a b 2.0" ["zz"]).2.2 "a" "b" "2.0"
     (by decide) (by decide) (by decide)⟩

/-- C8 counterexample: a whitespace-only line has zero tokens — a token
count other than three, hence it fails to parse as an edge — yet the read
loop's `elif len(parts) > 0` guard skips it silently, so no diagnostic is
counted for it. -/
theorem c8_blank_line_skipped_without_diagnostic :
    splitWS "   " = [] ∧ (loadGraph ["a b 1.0", "   "]).2 = 0 :=
  ⟨by decide, by decide⟩

/-- C8 (amended): every NONEMPTY line that fails to parse as an edge is
skipped with a diagnostic (whitespace-only lines are skipped silently), the
diagnostics count is exactly the number of such lines, malformed lines leave
the graph exactly as if they were absent, and every well-formed line still
contributes its edge. -/
theorem c8_malformed_line_handling (ls : List String) :
    ((loadGraph ls).2 = (bodyOf ls).countP malformedLine) ∧
    ((loadGraph ls).1 =
      (processLines AdjGraph.empty 0 ((bodyOf ls).filter edgeLine)).1) ∧
    (∀ line ∈ ls, ∀ u v w : String, splitWS line = [u, v, w] →
      (parseFloatTok w).isSome = true → (loadGraph ls).1.hasEdgeB u v = true) := by
  refine ⟨?_, ?_, ?_⟩
  · rw [loadGraph_eq_processLines, processLines_snd]
    exact Nat.zero_add _
  · rw [loadGraph_eq_processLines]
    exact processLines_fst_filter _ _ _ _
  · intro line hmem u v w hsp hf
    rw [loadGraph_eq_processLines]
    apply processLines_mem_edge _ _ _ line u v w _ hsp hf
    rcases ls with _ | ⟨first, rest⟩
    · simp at hmem
    · rw [bodyOf_cons]
      by_cases hh : isHeaderLine first
      · rw [if_pos hh]
        rcases List.mem_cons.mp hmem with hm | hm
        · exfalso
          subst hm
          simp only [isHeaderLine, hsp] at hh
          exact Bool.false_ne_true hh
        · exact hm
      · rw [if_neg hh]
        exact hmem

/-- Witness for C8 on a concrete input: header, a good line, a two-token
line (one diagnostic), another good line; the count is reported and the good
lines load. -/
theorem c8_malformed_line_handling_witness :
    (loadGraph ["3 2", "a b 1.0", "x y", "c d -2.5"]).2 =
        (bodyOf ["3 2", "a b 1.0", "x y", "c d -2.5"]).countP malformedLine ∧
      (loadGraph ["3 2", "a b 1.0", "x y", "c d -2.5"]).1.hasEdgeB "c" "d" = true :=
  ⟨(c8_malformed_line_handling ["3 2", "a b 1.0", "x y", "c d -2.5"]).1,
   (c8_malformed_line_handling ["3 2", "a b 1.0", "x y", "c d -2.5"]).2.2
     "c d -2.5" (by decide) "c" "d" "-2.5" (by decide) (by decide)⟩

/-- C9 counterexample: the read loop calls `add_edge(u, v, ...)` without any
`u != v` check, so the well-formed line `"a a 2.0"` adds a self-loop to the
weighted graph. -/
theorem c9_self_loop_loaded :
    (loadGraph ["a a 2.0"]).1.hasEdgeB "a" "a" = true := by decide

/-- C9 (amended): the loader enforces no distinct-endpoint invariant; the
produced graph is self-loop-free only when no well-formed input line repeats
its first two tokens. -/
theorem c9_no_self_loop_when_input_has_none (ls : List String)
    (h : ∀ line ∈ ls, ∀ u v w : String, splitWS line = [u, v, w] →
      (parseFloatTok w).isSome = true → u ≠ v) :
    ∀ a : String, (loadGraph ls).1.hasEdgeB a a = false := by
  intro a
  rw [loadGraph_eq_processLines]
  have hbody : ∀ line ∈ bodyOf ls, ∀ u v w : String, splitWS line = [u, v, w] →
      (parseFloatTok w).isSome = true → u ≠ v := by
    intro line hmem
    apply h
    rcases ls with _ | ⟨first, rest⟩
    · rw [bodyOf_nil] at hmem
      exact absurd hmem (List.not_mem_nil _)
    · rw [bodyOf_cons] at hmem
      by_cases hh : isHeaderLine first
      · rw [if_pos hh] at hmem
        exact List.mem_cons_of_mem _ hmem
      · rwa [if_neg hh] at hmem
  have main : ∀ (lsb : List String) (g : WGraph) (k : Nat),
      (∀ line ∈ lsb, ∀ u v w : String, splitWS line = [u, v, w] →
        (parseFloatTok w).isSome = true → u ≠ v) →
      g.hasEdgeB a a = false → (processLines g k lsb).1.hasEdgeB a a = false := by
    intro lsb
    induction lsb with
    | nil => intro g k _ hg; exact hg
    | cons line rest ih =>
        intro g k hl hg
        rw [processLines_cons]
        apply ih _ _ (fun l hm => hl l (List.mem_cons_of_mem _ hm))
        rcases processLine_cases g line with ⟨u, v, w, q, hsp, hf, hpl⟩ | hpl
        · rw [hpl]
          unfold AdjGraph.hasEdgeB at hg ⊢
          rw [valOf_addEdge, if_neg ?_]
          · exact hg
          · rintro (⟨h1, h2⟩ | ⟨h1, h2⟩)
            · exact hl line (List.mem_cons_self _ _) u v w hsp (by rw [hf]; rfl)
                (h1.symm.trans h2)
            · exact hl line (List.mem_cons_self _ _) u v w hsp (by rw [hf]; rfl)
                (h2.symm.trans h1)
        · rw [hpl]
          exact hg
  exact main (bodyOf ls) _ 0 hbody rfl

/-- Witness for C9 on an input whose lines never repeat their endpoints. -/
theorem c9_no_self_loop_when_input_has_none_witness :
    (loadGraph ["3 1", "a b 1.5"]).1.hasEdgeB "a" "a" = false := by
  apply c9_no_self_loop_when_input_has_none
  intro line hmem u v w hsp hf
  simp only [List.mem_cons, List.mem_singleton] at hmem
  rcases hmem with hm | hm
  · subst hm
    rw [show splitWS "3 1" = ["3", "1"] from by decide] at hsp
    simp at hsp
  · rcases hm with hm | hm
    · subst hm
      rw [show splitWS "a b 1.5" = ["a", "b", "1.5"] from by decide] at hsp
      injection hsp with h1 hsp
      injection hsp with h2 hsp
      subst h1
      subst h2
      decide
    · simp at hm

theorem touchesPair_symm {b c : Type} (e1 : String × String × b)
    (e2 : String × String × c) :
    touchesPair e1 e2.1 e2.2.1 ↔ touchesPair e2 e1.1 e1.2.1 := by
  unfold touchesPair
  constructor
  · rintro (⟨h1, h2⟩ | ⟨h1, h2⟩)
    · exact Or.inl ⟨h1.symm, h2.symm⟩
    · exact Or.inr ⟨h2.symm, h1.symm⟩
  · rintro (⟨h1, h2⟩ | ⟨h1, h2⟩)
    · exact Or.inl ⟨h1.symm, h2.symm⟩
    · exact Or.inr ⟨h2.symm, h1.symm⟩

theorem valOf_binStep (p n : ℚ) (gb : SGraph) (e : String × String × ℚ) (a c : String) :
    (binStep p n gb e).valOf a c =
      if touchesPair e a c then
        (if e.2.2 > p then some 1 else if e.2.2 < n then some (-1) else gb.valOf a c)
      else gb.valOf a c := by
  unfold binStep touchesPair
  by_cases h1 : e.2.2 > p
  · rw [if_pos h1, valOf_addEdge, valOf_addNode, valOf_addNode]
    by_cases ht : (a = e.1 ∧ c = e.2.1) ∨ (a = e.2.1 ∧ c = e.1)
    · rw [if_pos ht, if_pos ht, if_pos h1]
    · rw [if_neg ht, if_neg ht]
  · rw [if_neg h1]
    by_cases h2 : e.2.2 < n
    · rw [if_pos h2, valOf_addEdge, valOf_addNode, valOf_addNode]
      by_cases ht : (a = e.1 ∧ c = e.2.1) ∨ (a = e.2.1 ∧ c = e.1)
      · rw [if_pos ht, if_pos ht, if_neg h1, if_pos h2]
      · rw [if_neg ht, if_neg ht]
    · rw [if_neg h2, valOf_addNode, valOf_addNode]
      by_cases ht : (a = e.1 ∧ c = e.2.1) ∨ (a = e.2.1 ∧ c = e.1)
      · rw [if_pos ht, if_neg h1, if_neg h2]
      · rw [if_neg ht]

theorem bin_fold_noTouch (p n : ℚ) (L : List (String × String × ℚ)) :
    ∀ (gb : SGraph) (a c : String), (∀ e ∈ L, ¬ touchesPair e a c) →
      (L.foldl (binStep p n) gb).valOf a c = gb.valOf a c := by
  induction L with
  | nil => intro gb a c _; rfl
  | cons e rest ih =>
      intro gb a c h
      rw [List.foldl_cons, ih _ _ _ (fun e2 hm => h e2 (List.mem_cons_of_mem _ hm)),
        valOf_binStep, if_neg (h e (List.mem_cons_self _ _))]

theorem bin_fold_touch (p n : ℚ) (L : List (String × String × ℚ)) :
    ∀ (gb : SGraph) (e : String × String × ℚ), e ∈ L →
      L.Pairwise (fun e1 e2 => ¬ touchesPair e2 e1.1 e1.2.1) →
      (L.foldl (binStep p n) gb).valOf e.1 e.2.1 =
        (if e.2.2 > p then some 1 else if e.2.2 < n then some (-1)
         else gb.valOf e.1 e.2.1) := by
  induction L with
  | nil => intro gb e hm; simp at hm
  | cons e0 rest ih =>
      intro gb e hm hp
      rcases List.pairwise_cons.mp hp with ⟨hhead, htail⟩
      rcases List.mem_cons.mp hm with hm | hm
      · subst hm
        rw [List.foldl_cons, bin_fold_noTouch p n rest _ _ _ hhead, valOf_binStep,
          if_pos (Or.inl ⟨rfl, rfl⟩)]
      · rw [List.foldl_cons, ih _ _ hm htail, valOf_binStep,
          if_neg (fun ht => hhead e hm ((touchesPair_symm e0 e).mp ht))]

theorem nodes_binStep (p n : ℚ) (gb : SGraph) (e : String × String × ℚ) (a : String) :
    a ∈ (binStep p n gb e).nodes ↔ a ∈ gb.nodes ∨ a = e.1 ∨ a = e.2.1 := by
  unfold binStep
  by_cases h1 : e.2.2 > p
  · rw [if_pos h1, mem_nodes_addEdge, mem_nodes_addNode, mem_nodes_addNode]
    tauto
  · rw [if_neg h1]
    by_cases h2 : e.2.2 < n
    · rw [if_pos h2, mem_nodes_addEdge, mem_nodes_addNode, mem_nodes_addNode]
      tauto
    · rw [if_neg h2, mem_nodes_addNode, mem_nodes_addNode]
      tauto

theorem bin_fold_nodes_mono (p n : ℚ) (L : List (String × String × ℚ)) :
    ∀ (gb : SGraph) (a : String), a ∈ gb.nodes →
      a ∈ (L.foldl (binStep p n) gb).nodes := by
  induction L with
  | nil => intro gb a h; exact h
  | cons e rest ih =>
      intro gb a h
      rw [List.foldl_cons]
      exact ih _ _ ((nodes_binStep p n gb e a).mpr (Or.inl h))

theorem bin_fold_nodes (p n : ℚ) (L : List (String × String × ℚ)) :
    ∀ (gb : SGraph) (e : String × String × ℚ), e ∈ L →
      e.1 ∈ (L.foldl (binStep p n) gb).nodes ∧
        e.2.1 ∈ (L.foldl (binStep p n) gb).nodes := by
  induction L with
  | nil => intro gb e hm; simp at hm
  | cons e0 rest ih =>
      intro gb e hm
      rcases List.mem_cons.mp hm with hm | hm
      · subst hm
        rw [List.foldl_cons]
        constructor
        · exact bin_fold_nodes_mono p n rest _ _
            ((nodes_binStep p n gb e e.1).mpr (Or.inr (Or.inl rfl)))
        · exact bin_fold_nodes_mono p n rest _ _
            ((nodes_binStep p n gb e e.2.1).mpr (Or.inr (Or.inr rfl)))
      · rw [List.foldl_cons]
        exact ih _ _ hm

/-- C4 counterexample.  First part: the binarization loop iterates over
`edges(data=True)` only, so an isolated node of the weighted graph is NOT
carried into the signed graph, contradicting "every node of the input graph
is present in the output graph".  Second part: with thresholds
pos_threshold = -1, neg_threshold = 1 (the claim quantifies over every pair
of thresholds) and weight 0, the weight is strictly below neg_threshold yet
the edge comes out Positive, because the `weight > pos_thresh` branch is
tested first — contradicting "carries sign Negative iff its weight is
strictly less than neg_threshold".  Third part: with the same overlapping
thresholds pos_threshold = -1, neg_threshold = 1, a weight of -1 — exactly
equal to pos_threshold — still produces a signed edge (Negative, since
-1 < neg_threshold), contradicting "a weight exactly equal to a threshold
produces no signed edge"; that sentence holds only when
neg_threshold ≤ pos_threshold. -/
theorem c4_binarizer_counterexample :
    ("x" ∈ wIsolated.nodes ∧ "x" ∉ (binarize wIsolated (3/2) (-3/2)).nodes) ∧
      ((0 : ℚ) < 1 ∧ (binarize wOverlap (-1) 1).valOf "a" "b" = some 1) ∧
      (binarize wEqual (-1) 1).valOf "a" "b" = some (-1) := by
  have hstep : binarize wOverlap (-1) 1 =
      ((AdjGraph.empty.addNode "a").addNode "b").addEdge "a" "b" 1 := by
    show List.foldl (binStep (-1) 1) AdjGraph.empty wOverlap.edgeList = _
    rw [show wOverlap.edgeList = [("a", "b", (0 : ℚ))] from rfl, List.foldl_cons,
      List.foldl_nil]
    unfold binStep
    rw [if_pos (show (("a", "b", (0 : ℚ))).2.2 > (-1 : ℚ) by norm_num)]
  have hstep2 : binarize wEqual (-1) 1 =
      ((AdjGraph.empty.addNode "a").addNode "b").addEdge "a" "b" (-1) := by
    show List.foldl (binStep (-1) 1) AdjGraph.empty wEqual.edgeList = _
    rw [show wEqual.edgeList = [("a", "b", (-1 : ℚ))] from rfl, List.foldl_cons,
      List.foldl_nil]
    unfold binStep
    rw [if_neg (show ¬ (("a", "b", (-1 : ℚ))).2.2 > (-1 : ℚ) from lt_irrefl _),
      if_pos (show (("a", "b", (-1 : ℚ))).2.2 < (1 : ℚ) by norm_num)]
  refine ⟨⟨?_, ?_⟩, ⟨by norm_num, ?_⟩, ?_⟩
  · decide
  · rw [show binarize wIsolated (3/2) (-3/2) = AdjGraph.empty from rfl]
    decide
  · rw [hstep, valOf_addEdge, if_pos (Or.inl ⟨rfl, rfl⟩)]
  · rw [hstep2, valOf_addEdge, if_pos (Or.inl ⟨rfl, rfl⟩)]

/-- C4 (amended): for every weighted graph whose edge list mentions each
unordered pair at most once and for every pair of thresholds, the Binarizer
terminates and produces a signed graph in which every edge-incident node of
the input is present, an edge pair carries `+1` iff its weight is strictly
greater than pos_threshold, carries `-1` iff its weight is not strictly
greater than pos_threshold and strictly less than neg_threshold, and is
absent otherwise; pairs with no input edge are absent; and whenever
neg_threshold ≤ pos_threshold (in particular for the scripts' thresholds),
a weight exactly equal to either threshold produces no signed edge — under
overlapping thresholds that last sentence fails, the third fact of the
counterexample.  (Isolated input nodes are dropped, and the positive test
takes precedence — the first two facts of the counterexample.) -/
theorem c4_binarize_amended (g : WGraph) (p n : ℚ)
    (hdist : g.edgeList.Pairwise (fun e1 e2 => ¬ touchesPair e2 e1.1 e1.2.1)) :
    (∀ e ∈ g.edgeList,
      e.1 ∈ (binarize g p n).nodes ∧ e.2.1 ∈ (binarize g p n).nodes) ∧
    (∀ e ∈ g.edgeList,
      (binarize g p n).valOf e.1 e.2.1 =
        (if e.2.2 > p then some 1 else if e.2.2 < n then some (-1) else none)) ∧
    (∀ a c : String, (∀ e ∈ g.edgeList, ¬ touchesPair e a c) →
      (binarize g p n).valOf a c = none) ∧
    (∀ e ∈ g.edgeList, n ≤ p → (e.2.2 = p ∨ e.2.2 = n) →
      (binarize g p n).valOf e.1 e.2.1 = none) := by
  refine ⟨?_, ?_, ?_, ?_⟩
  · intro e hm
    exact bin_fold_nodes p n g.edgeList AdjGraph.empty e hm
  · intro e hm
    rw [show binarize g p n = g.edgeList.foldl (binStep p n) AdjGraph.empty from rfl,
      bin_fold_touch p n g.edgeList AdjGraph.empty e hm hdist]
    rw [show (AdjGraph.empty.valOf e.1 e.2.1 : Option Int) = none from rfl]
  · intro a c h
    rw [show binarize g p n = g.edgeList.foldl (binStep p n) AdjGraph.empty from rfl,
      bin_fold_noTouch p n g.edgeList AdjGraph.empty a c h]
    rfl
  · intro e hm hle heq
    rw [show binarize g p n = g.edgeList.foldl (binStep p n) AdjGraph.empty from rfl,
      bin_fold_touch p n g.edgeList AdjGraph.empty e hm hdist]
    rcases heq with heq | heq
    · rw [heq, if_neg (show ¬ p > p from lt_irrefl p),
        if_neg (show ¬ p < n from not_lt.mpr hle)]
      rfl
    · rw [heq, if_neg (show ¬ n > p from not_lt.mpr hle),
        if_neg (show ¬ n < n from lt_irrefl n)]
      rfl

/-- Witness for C4 (amended) at concrete graphs and the thresholds 1.5 and
-1.5 used by the scripts; the last conjunct exercises the equal-threshold
clause at a weight equal to pos_threshold. -/
theorem c4_binarize_amended_witness :
    (binarize wExample (3/2) (-3/2)).valOf "a" "b" = some 1 ∧
      "c" ∈ (binarize wExample (3/2) (-3/2)).nodes ∧
      (binarize wBoundary (3/2) (-3/2)).valOf "a" "b" = none := by
  have hlist : wExample.edgeList = [("a", "b", (5 : ℚ)), ("b", "c", (-7 : ℚ))] := rfl
  have hdist : wExample.edgeList.Pairwise
      (fun e1 e2 => ¬ touchesPair e2 e1.1 e1.2.1) := by
    rw [hlist]
    refine List.Pairwise.cons ?_ (List.pairwise_singleton _ _)
    intro e2 hm ht
    rw [List.mem_singleton] at hm
    subst hm
    rcases ht with ⟨h1, h2⟩ | ⟨h1, h2⟩
    · exact absurd h1 (by decide)
    · exact absurd h1 (by decide)
  refine ⟨?_, ?_, ?_⟩
  · have h := (c4_binarize_amended wExample (3/2) (-3/2) hdist).2.1
      ("a", "b", (5 : ℚ)) (by rw [hlist]; exact List.mem_cons_self _ _)
    rw [h, if_pos (show (("a", "b", (5 : ℚ))).2.2 > (3/2 : ℚ) by norm_num)]
  · have hmem : ("b", "c", (-7 : ℚ)) ∈ wExample.edgeList := by
      rw [hlist]
      exact List.mem_cons_of_mem _ (List.mem_cons_self _ _)
    exact ((c4_binarize_amended wExample (3/2) (-3/2) hdist).1
      ("b", "c", (-7 : ℚ)) hmem).2
  · have hlistB : wBoundary.edgeList = [("a", "b", (3/2 : ℚ))] := rfl
    have hdistB : wBoundary.edgeList.Pairwise
        (fun e1 e2 => ¬ touchesPair e2 e1.1 e1.2.1) := by
      rw [hlistB]
      exact List.pairwise_singleton _ _
    exact (c4_binarize_amended wBoundary (3/2) (-3/2) hdistB).2.2.2
      ("a", "b", (3/2 : ℚ)) (by rw [hlistB]; exact List.mem_cons_self _ _)
      (by norm_num) (Or.inl rfl)

/-! Order facts about the modelled Python string comparison. -/

theorem charListLt_asymm (x : List Char) :
    ∀ y, charListLt x y = true → charListLt y x = false := by
  induction x with
  | nil =>
      intro y h
      cases y with
      | nil => simp [charListLt] at h
      | cons d ds => simp [charListLt]
  | cons c cs ih =>
      intro y h
      cases y with
      | nil => simp [charListLt] at h
      | cons d ds =>
          simp only [charListLt] at h ⊢
          by_cases hcd : c < d
          · rw [if_neg (lt_asymm hcd), if_pos hcd]
          · rw [if_neg hcd] at h
            by_cases hdc : d < c
            · rw [if_pos hdc] at h
              simp at h
            · rw [if_neg hdc] at h
              rw [if_neg hdc, if_neg hcd]
              exact ih ds h

theorem charListLt_trans (x : List Char) :
    ∀ y z, charListLt x y = true → charListLt y z = true → charListLt x z = true := by
  induction x with
  | nil =>
      intro y z hxy hyz
      cases y with
      | nil => simp [charListLt] at hxy
      | cons d ds =>
          cases z with
          | nil => simp [charListLt] at hyz
          | cons e es => simp [charListLt]
  | cons c cs ih =>
      intro y z hxy hyz
      cases y with
      | nil => simp [charListLt] at hxy
      | cons d ds =>
          cases z with
          | nil => simp [charListLt] at hyz
          | cons e es =>
              simp only [charListLt] at hxy hyz ⊢
              by_cases hcd : c < d
              · by_cases hde : d < e
                · rw [if_pos (lt_trans hcd hde)]
                · rw [if_neg hde] at hyz
                  by_cases hed : e < d
                  · rw [if_pos hed] at hyz
                    simp at hyz
                  · have hdeq : d = e := le_antisymm (not_lt.mp hed) (not_lt.mp hde)
                    rw [if_pos (hdeq ▸ hcd)]
              · rw [if_neg hcd] at hxy
                by_cases hdc : d < c
                · rw [if_pos hdc] at hxy
                  simp at hxy
                · rw [if_neg hdc] at hxy
                  have hceq : c = d := le_antisymm (not_lt.mp hdc) (not_lt.mp hcd)
                  subst hceq
                  by_cases hce : c < e
                  · rw [if_pos hce]
                  · rw [if_neg hce] at hyz
                    by_cases hec : e < c
                    · rw [if_pos hec] at hyz
                      simp at hyz
                    · rw [if_neg hec] at hyz
                      rw [if_neg hce, if_neg hec]
                      exact ih ds es hxy hyz

theorem eq_of_charListLt_false (x : List Char) :
    ∀ y, charListLt x y = false → charListLt y x = false → x = y := by
  induction x with
  | nil =>
      intro y h1 _
      cases y with
      | nil => rfl
      | cons d ds => simp [charListLt] at h1
  | cons c cs ih =>
      intro y h1 h2
      cases y with
      | nil => simp [charListLt] at h2
      | cons d ds =>
          simp only [charListLt] at h1 h2
          by_cases hcd : c < d
          · rw [if_pos hcd] at h1
            simp at h1
          · by_cases hdc : d < c
            · rw [if_pos hdc] at h2
              simp at h2
            · rw [if_neg hcd, if_neg hdc] at h1
              rw [if_neg hdc, if_neg hcd] at h2
              have hceq : c = d := le_antisymm (not_lt.mp hdc) (not_lt.mp hcd)
              rw [hceq, ih ds h1 h2]

theorem strLt_asymm_false {s t : String} (h1 : strLt s t = true)
    (h2 : strLt t s = true) : False := by
  have h3 : strLt t s = false := charListLt_asymm _ _ h1
  rw [h2] at h3
  exact Bool.false_ne_true h3.symm

theorem strLt_asymm {s t : String} (h : strLt s t = true) : strLt t s = false :=
  charListLt_asymm _ _ h

theorem strLt_trans {s t u₂ : String} (h1 : strLt s t = true)
    (h2 : strLt t u₂ = true) : strLt s u₂ = true :=
  charListLt_trans _ _ _ h1 h2

theorem eq_of_strLt_false {s t : String} (h1 : strLt s t = false)
    (h2 : strLt t s = false) : s = t :=
  String.ext (eq_of_charListLt_false _ _ h1 h2)

theorem strLt_of_not_lt_of_ne {s t : String} (h1 : strLt t s = false)
    (hne : s ≠ t) : strLt s t = true := by
  cases hx : strLt s t with
  | true => rfl
  | false => exact absurd (eq_of_strLt_false hx h1) hne

/-! Facts about `combinations(l, 2)`. -/

theorem mem_pairs2 {a : Type} (l : List a) (p : a × a) (h : p ∈ pairs2 l) :
    p.1 ∈ l ∧ p.2 ∈ l := by
  induction l with
  | nil => simp [pairs2] at h
  | cons x xs ih =>
      unfold pairs2 at h
      rcases List.mem_append.mp h with h | h
      · rcases List.mem_map.mp h with ⟨y, hy, rfl⟩
        exact ⟨List.mem_cons_self _ _, List.mem_cons_of_mem _ hy⟩
      · rcases ih h with ⟨ha, hb⟩
        exact ⟨List.mem_cons_of_mem _ ha, List.mem_cons_of_mem _ hb⟩

theorem pairs2_ne {a : Type} (l : List a) (h : l.Nodup) (p : a × a)
    (hp : p ∈ pairs2 l) : p.1 ≠ p.2 := by
  induction l with
  | nil => simp [pairs2] at hp
  | cons x xs ih =>
      rcases List.nodup_cons.mp h with ⟨hx, hxs⟩
      unfold pairs2 at hp
      rcases List.mem_append.mp hp with hp | hp
      · rcases List.mem_map.mp hp with ⟨y, hy, rfl⟩
        intro he
        refine hx ?_
        rw [show x = y from he]
        exact hy
      · exact ih hxs hp

theorem pairs2_nodup {a : Type} (l : List a) (h : l.Nodup) : (pairs2 l).Nodup := by
  induction l with
  | nil => simp [pairs2]
  | cons x xs ih =>
      rcases List.nodup_cons.mp h with ⟨hx, hxs⟩
      unfold pairs2
      rw [List.nodup_append]
      refine ⟨List.Nodup.map (fun y1 y2 he => ?_) hxs, ih hxs, ?_⟩
      · exact (Prod.mk.injEq _ _ _ _).mp he |>.2
      · intro p hp1 hp2
        rcases List.mem_map.mp hp1 with ⟨y, hy, rfl⟩
        exact hx (mem_pairs2 xs _ hp2).1

/-! C10: each unordered triple causes at most one counter increment. -/

/-- The counter update adds exactly 1 to the reported total. -/
theorem countsTotal_classifyInc (c : Counts) (s1 s2 s3 : Int) :
    countsTotal (classifyInc c s1 s2 s3) = countsTotal c + 1 := by
  unfold classifyInc
  cases h : classify s1 s2 s3 <;> simp only [countsTotal] <;> omega

theorem countsTotal_foldl (g : SGraph) (l : List (String × String × String)) :
    ∀ c : Counts,
      countsTotal (l.foldl (fun c t => classifyInc c (signVal g t.1 t.2.1)
        (signVal g t.1 t.2.2) (signVal g t.2.1 t.2.2)) c) = countsTotal c + l.length := by
  induction l with
  | nil => intro c; simp
  | cons t rest ih =>
      intro c
      rw [List.foldl_cons, ih, countsTotal_classifyInc, List.length_cons]
      omega

/-- The total the script reports is exactly the number of accepted
arrangements, i.e. the number of counter increments performed. -/
theorem countsTotal_eq_length (g : SGraph) :
    countsTotal (countTriangles g) = (acceptedTriples g).length := by
  unfold countTriangles
  rw [countsTotal_foldl]
  simp [countsTotal]

theorem sorted_arrangement_unique (a b c : String) (t t' : String × String × String)
    (ht1 : strLt t.1 t.2.1 = true) (ht2 : strLt t.2.1 t.2.2 = true)
    (hs1 : strLt t'.1 t'.2.1 = true) (hs2 : strLt t'.2.1 t'.2.2 = true)
    (ha : isArrangement t a b c = true) (ha' : isArrangement t' a b c = true) :
    t = t' := by
  obtain ⟨x, y, z⟩ := t
  obtain ⟨p, q, r⟩ := t'
  simp only [isArrangement, Bool.or_eq_true, Bool.and_eq_true, beq_iff_eq, or_assoc,
    and_assoc] at ha ha'
  rcases ha with ⟨e1, e2, e3⟩ | ⟨e1, e2, e3⟩ | ⟨e1, e2, e3⟩ | ⟨e1, e2, e3⟩ |
    ⟨e1, e2, e3⟩ | ⟨e1, e2, e3⟩ <;>
  rcases ha' with ⟨f1, f2, f3⟩ | ⟨f1, f2, f3⟩ | ⟨f1, f2, f3⟩ | ⟨f1, f2, f3⟩ |
    ⟨f1, f2, f3⟩ | ⟨f1, f2, f3⟩ <;>
  subst e1 <;> subst e2 <;> subst e3 <;> subst f1 <;> subst f2 <;> subst f3 <;>
  first
    | rfl
    | exact (strLt_asymm_false ht1 hs1).elim
    | exact (strLt_asymm_false ht1 hs2).elim
    | exact (strLt_asymm_false ht2 hs1).elim
    | exact (strLt_asymm_false ht2 hs2).elim
    | exact (strLt_asymm_false (strLt_trans ht1 ht2) hs1).elim
    | exact (strLt_asymm_false (strLt_trans ht1 ht2) hs2).elim

theorem nbrs_nodup {b : Type} (g : AdjGraph b)
    (h2 : ∀ kn ∈ g.adj, (kn.2.map Prod.fst).Nodup) (u : String) :
    (g.nbrs u).Nodup := by
  unfold AdjGraph.nbrs
  rcases h : findAssoc u g.adj with _ | l
  · simp
  · exact h2 (u, l) (findAssoc_mem h)

theorem not_self_nbr {b : Type} (g : AdjGraph b)
    (h4 : ∀ kn ∈ g.adj, kn.1 ∉ kn.2.map Prod.fst) (u : String) :
    u ∉ g.nbrs u := by
  unfold AdjGraph.nbrs
  rcases h : findAssoc u g.adj with _ | l
  · simp
  · exact h4 (u, l) (findAssoc_mem h)

theorem acceptPair_eq_some (g : SGraph) (u : String) (vw : String × String)
    (t : String × String × String) :
    acceptPair g u vw = some t ↔
      g.hasEdgeB vw.1 vw.2 = true ∧ strLt vw.1 u = false ∧ strLt vw.2 vw.1 = false ∧
        t = (u, vw.1, vw.2) := by
  unfold acceptPair
  by_cases h1 : g.hasEdgeB vw.1 vw.2
  · rw [if_pos h1]
    by_cases h2 : (strLt vw.1 u || strLt vw.2 vw.1) = true
    · rw [if_pos h2]
      simp only [Bool.or_eq_true] at h2
      constructor
      · intro h
        exact absurd h (by simp)
      · rintro ⟨_, hb, hc, _⟩
        rcases h2 with h2 | h2
        · rw [hb] at h2
          exact absurd h2 (by simp)
        · rw [hc] at h2
          exact absurd h2 (by simp)
    · rw [if_neg h2]
      simp only [Bool.or_eq_true, not_or, Bool.not_eq_true] at h2
      constructor
      · intro h
        exact ⟨h1, h2.1, h2.2, (Option.some_injective _ h).symm⟩
      · rintro ⟨_, _, _, rfl⟩
        rfl
  · rw [if_neg h1]
    simp only [Bool.not_eq_true] at h1
    constructor
    · intro h
      exact absurd h (by simp)
    · rintro ⟨hA, _, _, _⟩
      rw [hA] at h1
      exact absurd h1 (by simp)

theorem mem_nodeTriples (g : SGraph) (u : String) (t : String × String × String)
    (ht : t ∈ nodeTriples g u) :
    ∃ vw ∈ pairs2 (g.nbrs u), g.hasEdgeB vw.1 vw.2 = true ∧ strLt vw.1 u = false ∧
      strLt vw.2 vw.1 = false ∧ t = (u, vw.1, vw.2) := by
  unfold nodeTriples at ht
  by_cases hlen : (g.nbrs u).length < 2
  · rw [if_pos hlen] at ht
    exact absurd ht (List.not_mem_nil _)
  · rw [if_neg hlen] at ht
    rcases List.mem_filterMap.mp ht with ⟨vw, hvw, hacc⟩
    rcases (acceptPair_eq_some g u vw t).mp hacc with ⟨hA, hB, hC, hD⟩
    exact ⟨vw, hvw, hA, hB, hC, hD⟩

theorem nodeTriples_fst (g : SGraph) (u : String) (t : String × String × String)
    (ht : t ∈ nodeTriples g u) : t.1 = u := by
  rcases mem_nodeTriples g u t ht with ⟨vw, _, _, _, _, hD⟩
  rw [hD]

/-- Every accepted arrangement is strictly ascending in the modelled string
order: `u` below `v` below `w`. -/
theorem accepted_sorted (g : SGraph)
    (h2 : ∀ kn ∈ g.adj, (kn.2.map Prod.fst).Nodup)
    (h4 : ∀ kn ∈ g.adj, kn.1 ∉ kn.2.map Prod.fst)
    (t : String × String × String) (ht : t ∈ acceptedTriples g) :
    strLt t.1 t.2.1 = true ∧ strLt t.2.1 t.2.2 = true := by
  unfold acceptedTriples at ht
  rcases List.mem_flatMap.mp ht with ⟨u, hu, htu⟩
  rcases mem_nodeTriples g u t htu with ⟨vw, hvw, hE, hB, hC, hD⟩
  subst hD
  have hmem := mem_pairs2 _ _ hvw
  have hne : vw.1 ≠ vw.2 := pairs2_ne _ (nbrs_nodup g h2 u) _ hvw
  have hnu : vw.1 ≠ u := by
    intro he
    exact not_self_nbr g h4 u (he ▸ hmem.1)
  exact ⟨strLt_of_not_lt_of_ne hB (fun he => hnu he.symm),
    strLt_of_not_lt_of_ne hC hne⟩

theorem nodup_acceptedTriples (g : SGraph) (h1 : g.nodes.Nodup)
    (h2 : ∀ kn ∈ g.adj, (kn.2.map Prod.fst).Nodup) :
    (acceptedTriples g).Nodup := by
  unfold acceptedTriples
  rw [List.nodup_flatMap]
  constructor
  · intro u hu
    unfold nodeTriples
    by_cases hlen : (g.nbrs u).length < 2
    · rw [if_pos hlen]
      exact List.nodup_nil
    · rw [if_neg hlen]
      refine List.Nodup.filterMap ?_ (pairs2_nodup _ (nbrs_nodup g h2 u))
      intro vw vw' t ht ht'
      have hA := (acceptPair_eq_some g u vw t).mp (Option.mem_def.mp ht)
      have hB := (acceptPair_eq_some g u vw' t).mp (Option.mem_def.mp ht')
      have heq := hA.2.2.2.symm.trans hB.2.2.2
      obtain ⟨x1, x2⟩ := vw
      obtain ⟨y1, y2⟩ := vw'
      simp only [Prod.mk.injEq] at heq
      rw [Prod.mk.injEq]
      exact ⟨heq.2.1, heq.2.2⟩
  · refine List.Pairwise.imp ?_ h1
    intro u u' hne t ht ht'
    exact hne ((nodeTriples_fst g u t ht).symm.trans (nodeTriples_fst g u' t ht'))

theorem length_le_one_of_nodup_allEq {a : Type} (l : List a) (hn : l.Nodup)
    (he : ∀ x ∈ l, ∀ y ∈ l, x = y) : l.length ≤ 1 := by
  cases l with
  | nil => simp
  | cons x xs =>
      cases xs with
      | nil => simp
      | cons y ys =>
          exfalso
          rcases List.nodup_cons.mp hn with ⟨hx, _⟩
          have hxy := he x (List.mem_cons_self _ _) y
            (List.mem_cons_of_mem _ (List.mem_cons_self _ _))
          refine hx ?_
          rw [hxy]
          exact List.mem_cons_self _ _

/-- C10: for every signed graph (unique nodes, duplicate-free neighbour
dictionaries, no self-loops) and every unordered triple {a, b, c}, the
global pass accepts at most one arrangement of the triple — of the up to
three discoveries (one per vertex playing `u`), at most one survives the
string-order test — so no triangle is ever double counted; and the reported
total equals the number of accepted arrangements (one counter increment
each). -/
theorem c10_triple_counted_at_most_once (g : SGraph)
    (h1 : g.nodes.Nodup)
    (h2 : ∀ kn ∈ g.adj, (kn.2.map Prod.fst).Nodup)
    (h4 : ∀ kn ∈ g.adj, kn.1 ∉ kn.2.map Prod.fst)
    (a b c : String) :
    (acceptedTriples g).countP (fun t => isArrangement t a b c) ≤ 1 ∧
      countsTotal (countTriangles g) = (acceptedTriples g).length := by
  constructor
  · rw [List.countP_eq_length_filter]
    apply length_le_one_of_nodup_allEq
    · exact List.Nodup.filter _ (nodup_acceptedTriples g h1 h2)
    · intro x hx y hy
      rw [List.mem_filter] at hx hy
      rcases accepted_sorted g h2 h4 x hx.1 with ⟨hx1, hx2⟩
      rcases accepted_sorted g h2 h4 y hy.1 with ⟨hy1, hy2⟩
      exact sorted_arrangement_unique a b c x y hx1 hx2 hy1 hy2 hx.2 hy.2
  · exact countsTotal_eq_length g

/-- Witness for C10 at a concrete graph and triple. -/
theorem c10_triple_counted_at_most_once_witness :
    (acceptedTriples gFrustrated).countP
        (fun t => isArrangement t "r" "a" "b") ≤ 1 :=
  (c10_triple_counted_at_most_once gFrustrated (by decide) (by decide) (by decide)
    "r" "a" "b").1

/-! Support lemmas for the local search. -/

theorem mem_nbrs_iff_hasEdge {b : Type} (g : AdjGraph b) (u v : String) :
    v ∈ g.nbrs u ↔ g.hasEdgeB u v = true := by
  unfold AdjGraph.nbrs AdjGraph.hasEdgeB AdjGraph.valOf
  rcases h : findAssoc u g.adj with _ | l
  · simp
  · simp only [Option.getD_some, Option.some_bind]
    constructor
    · intro hm
      rcases hh : findAssoc v l with _ | x
      · rw [findAssoc_eq_none_iff] at hh
        exact absurd hm hh
      · simp
    · intro hs
      rcases hh : findAssoc v l with _ | x
      · rw [hh] at hs
        simp at hs
      · exact List.mem_map_of_mem Prod.fst (findAssoc_mem hh)

theorem newFirsts_cons {a : Type} [DecidableEq a] (x : a) (xs seen : List a) :
    newFirsts (x :: xs) seen =
      if x ∈ seen then newFirsts xs seen else x :: newFirsts xs (x :: seen) := rfl

theorem mem_newFirsts {a : Type} [DecidableEq a] (l : List a) :
    ∀ (seen : List a) (x : a), x ∈ newFirsts l seen ↔ x ∈ l ∧ x ∉ seen := by
  induction l with
  | nil => intro seen x; simp [newFirsts]
  | cons y ys ih =>
      intro seen x
      rw [newFirsts_cons]
      by_cases hy : y ∈ seen
      · rw [if_pos hy, ih]
        constructor
        · rintro ⟨hm, hs⟩
          exact ⟨List.mem_cons_of_mem _ hm, hs⟩
        · rintro ⟨hm, hs⟩
          rcases List.mem_cons.mp hm with heq | hm
          · exact absurd (heq ▸ hy) hs
          · exact ⟨hm, hs⟩
      · rw [if_neg hy]
        constructor
        · intro hm
          rcases List.mem_cons.mp hm with heq | hm
          · subst heq
            exact ⟨List.mem_cons_self _ _, hy⟩
          · rcases (ih _ x).mp hm with ⟨h1a, h2a⟩
            exact ⟨List.mem_cons_of_mem _ h1a,
              fun hc => h2a (List.mem_cons_of_mem _ hc)⟩
        · rintro ⟨hm, hs⟩
          rcases List.mem_cons.mp hm with heq | hm
          · subst heq
            exact List.mem_cons_self _ _
          · by_cases hxy : x = y
            · subst hxy
              exact List.mem_cons_self _ _
            · refine List.mem_cons_of_mem _ ((ih _ x).mpr ⟨hm, ?_⟩)
              intro hc
              rcases List.mem_cons.mp hc with heq | hc
              · exact hxy heq
              · exact hs hc

theorem nodup_newFirsts {a : Type} [DecidableEq a] (l : List a) :
    ∀ seen : List a, (newFirsts l seen).Nodup := by
  induction l with
  | nil => intro seen; simp [newFirsts]
  | cons y ys ih =>
      intro seen
      rw [newFirsts_cons]
      by_cases hy : y ∈ seen
      · rw [if_pos hy]
        exact ih _
      · rw [if_neg hy]
        rw [List.nodup_cons]
        exact ⟨fun hc => ((mem_newFirsts ys _ y).mp hc).2 (List.mem_cons_self _ _), ih _⟩

theorem sortPair_comm (v w : String) : sortPair v w = sortPair w v := by
  unfold sortPair
  cases h1 : strLt w v with
  | true => simp [h1, strLt_asymm h1]
  | false =>
      cases h2 : strLt v w with
      | true => simp [h1, h2]
      | false => simp [h1, h2, eq_of_strLt_false h2 h1]

theorem sortPair_eq_or (v w : String) :
    sortPair v w = (v, w) ∨ sortPair v w = (w, v) := by
  unfold sortPair
  cases h : strLt w v with
  | true => right; simp [h]
  | false => left; simp [h]

theorem sortPair_sorted (v w : String) :
    strLt (sortPair v w).2 (sortPair v w).1 = false := by
  unfold sortPair
  cases h : strLt w v with
  | true => simp [h, strLt_asymm h]
  | false => simp [h]

theorem sortPair_of_sorted (v w : String) (h : strLt w v = false) :
    sortPair v w = (v, w) := by
  unfold sortPair
  simp [h]

theorem sortPair_idem (v w : String) :
    sortPair (sortPair v w).1 (sortPair v w).2 = sortPair v w := by
  rw [sortPair_of_sorted _ _ (sortPair_sorted v w)]

theorem sortPair_inj (a b c d : String) (h : sortPair a b = sortPair c d) :
    (a = c ∧ b = d) ∨ (a = d ∧ b = c) := by
  rcases sortPair_eq_or a b with h1 | h1 <;> rcases sortPair_eq_or c d with h2 | h2 <;>
    rw [h1, h2, Prod.mk.injEq] at h
  · exact Or.inl h
  · exact Or.inr h
  · exact Or.inr ⟨h.2, h.1⟩
  · exact Or.inl ⟨h.2, h.1⟩

theorem not_rev_mem_pairs2 {a : Type} (l : List a) (h : l.Nodup) (x y : a)
    (hp : (x, y) ∈ pairs2 l) (hq : (y, x) ∈ pairs2 l) : x = y := by
  induction l with
  | nil => simp [pairs2] at hp
  | cons z zs ih =>
      rcases List.nodup_cons.mp h with ⟨hz, hzs⟩
      unfold pairs2 at hp hq
      rcases List.mem_append.mp hp with hp1 | hp1 <;>
        rcases List.mem_append.mp hq with hq1 | hq1
      · rcases List.mem_map.mp hp1 with ⟨y1, hy1, he1⟩
        rcases List.mem_map.mp hq1 with ⟨y2, hy2, he2⟩
        rw [Prod.mk.injEq] at he1 he2
        rw [← he1.1, ← he2.1]
      · rcases List.mem_map.mp hp1 with ⟨y1, hy1, he1⟩
        rw [Prod.mk.injEq] at he1
        exfalso
        refine hz ?_
        rw [he1.1]
        exact (mem_pairs2 zs _ hq1).2
      · rcases List.mem_map.mp hq1 with ⟨y1, hy1, he1⟩
        rw [Prod.mk.injEq] at he1
        exfalso
        refine hz ?_
        rw [he1.1]
        exact (mem_pairs2 zs _ hp1).2
      · exact ih hzs hp1 hq1

theorem nodup_map_sortPair_pairs2 (l : List String) (h : l.Nodup) :
    ((pairs2 l).map (fun p => sortPair p.1 p.2)).Nodup := by
  refine List.Nodup.map_on ?_ (pairs2_nodup _ h)
  intro x hx y hy he
  rcases sortPair_inj _ _ _ _ he with ⟨h1, h2⟩ | ⟨h1, h2⟩
  · obtain ⟨x1, x2⟩ := x
    obtain ⟨y1, y2⟩ := y
    rw [Prod.mk.injEq]
    exact ⟨h1, h2⟩
  · exfalso
    obtain ⟨x1, x2⟩ := x
    obtain ⟨y1, y2⟩ := y
    have hyx : (x2, x1) ∈ pairs2 l := by
      rw [show (x2, x1) = (y1, y2) from by rw [Prod.mk.injEq]; exact ⟨h2, h1⟩]
      exact hy
    exact pairs2_ne l h (x1, x2) hx (not_rev_mem_pairs2 l h x1 x2 hx hyx)

theorem pairs2_complete {a : Type} (l : List a) (x y : a) (hx : x ∈ l) (hy : y ∈ l)
    (hne : x ≠ y) : (x, y) ∈ pairs2 l ∨ (y, x) ∈ pairs2 l := by
  induction l with
  | nil => simp at hx
  | cons z zs ih =>
      unfold pairs2
      rcases List.mem_cons.mp hx with hx1 | hx1
      · subst hx1
        have hy2 : y ∈ zs := by
          rcases List.mem_cons.mp hy with h | h
          · exact absurd h.symm hne
          · exact h
        left
        exact List.mem_append.mpr (Or.inl (List.mem_map.mpr ⟨y, hy2, rfl⟩))
      · rcases List.mem_cons.mp hy with hy1 | hy1
        · subst hy1
          right
          exact List.mem_append.mpr (Or.inl (List.mem_map.mpr ⟨x, hx1, rfl⟩))
        · rcases ih hx1 hy1 with h | h
          · exact Or.inl (List.mem_append.mpr (Or.inr h))
          · exact Or.inr (List.mem_append.mpr (Or.inr h))

theorem frust_iff (s1 s2 s3 : Int) (h1 : s1 = 1 ∨ s1 = -1) (h2 : s2 = 1 ∨ s2 = -1)
    (h3 : s3 = 1 ∨ s3 = -1) :
    (s1 * s2 * s3 = -1 ∧ s1 + s2 + s3 = 1) ↔ frustSpec s1 s2 s3 := by
  rcases h1 with h1 | h1 <;> rcases h2 with h2 | h2 <;> rcases h3 with h3 | h3 <;>
    subst h1 <;> subst h2 <;> subst h3 <;> decide

theorem two_le_length_of_two_mem {a : Type} (l : List a) (x y : a) (hx : x ∈ l)
    (hy : y ∈ l) (hne : x ≠ y) : 2 ≤ l.length := by
  cases l with
  | nil => simp at hx
  | cons z zs =>
      cases zs with
      | nil =>
          rw [List.mem_singleton] at hx hy
          exact absurd (hx.trans hy.symm) hne
      | cons w ws => simp [List.length_cons]

theorem localLoop_nil (g : SGraph) (root : String) (limit : Nat)
    (seen : List (String × String)) (acc : LocalSearchResult) :
    localLoop g root limit [] seen acc = acc := rfl

theorem localLoop_cons (g : SGraph) (root : String) (limit : Nat)
    (vw : String × String) (rest seen : List (String × String))
    (acc : LocalSearchResult) :
    localLoop g root limit (vw :: rest) seen acc =
      if sortPair vw.1 vw.2 ∈ seen then localLoop g root limit rest seen acc
      else if isFrust g root vw.1 vw.2 then
        localLoop g root limit rest (sortPair vw.1 vw.2 :: seen)
          ⟨acc.frustratedCount + 1,
            if acc.frustratedCount + 1 ≤ limit then acc.printed ++ [vw]
            else acc.printed⟩
      else localLoop g root limit rest (sortPair vw.1 vw.2 :: seen) acc := rfl

/-- The reported count of the scan is the number of distinct sorted pairs,
not previously seen, that pass the frustration test. -/
theorem localLoop_count (g : SGraph) (root : String) (limit : Nat)
    (hfr : ∀ v w, isFrust g root (sortPair v w).1 (sortPair v w).2 =
      isFrust g root v w) :
    ∀ (cands seen : List (String × String)) (acc : LocalSearchResult),
      (localLoop g root limit cands seen acc).frustratedCount =
        acc.frustratedCount +
          (newFirsts (cands.map (fun p => sortPair p.1 p.2)) seen).countP
            (fun p => isFrust g root p.1 p.2) := by
  intro cands
  induction cands with
  | nil => intro seen acc; simp [localLoop_nil, newFirsts]
  | cons vw rest ih =>
      intro seen acc
      rw [localLoop_cons, List.map_cons, newFirsts_cons]
      by_cases hseen : sortPair vw.1 vw.2 ∈ seen
      · rw [if_pos hseen, if_pos hseen, ih]
      · rw [if_neg hseen, if_neg hseen]
        by_cases hf : isFrust g root vw.1 vw.2
        · rw [if_pos hf, ih, List.countP_cons]
          simp only [hfr vw.1 vw.2, hf, if_pos]
          omega
        · have hf' : isFrust g root vw.1 vw.2 = false := by
            cases hx : isFrust g root vw.1 vw.2
            · rfl
            · exact absurd hx hf
          rw [if_neg hf, ih, List.countP_cons]
          simp [hfr vw.1 vw.2, hf']

theorem mem_localCandidates (g : SGraph) (root : String) (vw : String × String) :
    vw ∈ localCandidates g root ↔
      vw.1 ∈ g.nbrs root ∧ vw.2 ∈ g.nbrs vw.1 ∧ vw.2 ≠ root ∧ vw.2 ≠ vw.1 ∧
        g.hasEdgeB root vw.2 = true := by
  unfold localCandidates
  rw [List.mem_flatMap]
  constructor
  · rintro ⟨v, hv, hm⟩
    rcases List.mem_filterMap.mp hm with ⟨w, hw, hacc⟩
    by_cases hc : w = root ∨ w = v
    · rw [if_pos hc] at hacc
      exact absurd hacc (by simp)
    · rw [if_neg hc] at hacc
      by_cases he : g.hasEdgeB root w
      · rw [if_pos he] at hacc
        have heq : (v, w) = vw := Option.some_injective _ hacc
        push_neg at hc
        rw [← heq]
        exact ⟨hv, hw, hc.1, hc.2, he⟩
      · rw [if_neg he] at hacc
        exact absurd hacc (by simp)
  · rintro ⟨hc1, hc2, hc3, hc4, hc5⟩
    refine ⟨vw.1, hc1, List.mem_filterMap.mpr ⟨vw.2, hc2, ?_⟩⟩
    rw [if_neg (by push_neg; exact ⟨hc3, hc4⟩), if_pos hc5]

/-- C5: for every well-formed signed graph (unique nodes, symmetric
adjacency, signs in {+1, -1}, no self-loops, neighbour names that are nodes)
and every root present in the graph, the total `frustrated_count` reported by
`find_frustrated_triangles` equals the number of frustrated triangles
through the root found by brute force — each unordered triangle counted
once — for EVERY print limit. -/
theorem c5_local_search_counts_all (g : SGraph) (root : String) (limit : Nat)
    (h1 : g.nodes.Nodup)
    (h3 : ∀ kn ∈ g.adj, ∀ vs ∈ kn.2, g.valOf vs.1 kn.1 = some vs.2)
    (h4 : ∀ kn ∈ g.adj, kn.1 ∉ kn.2.map Prod.fst)
    (h5 : root ∈ g.nodes)
    (h6 : ∀ kn ∈ g.adj, ∀ vs ∈ kn.2, vs.1 ∈ g.nodes)
    (h7 : ∀ kn ∈ g.adj, ∀ vs ∈ kn.2, vs.2 = 1 ∨ vs.2 = -1) :
    (find_frustrated_triangles g root limit).frustratedCount =
      (bruteFrustratedPairs g root).length := by
  have hkey : ∀ u v s, g.valOf u v = some s → g.valOf v u = some s := by
    intro u v s h
    unfold AdjGraph.valOf at h
    rcases hu : findAssoc u g.adj with _ | l
    · rw [hu] at h
      simp at h
    · rw [hu] at h
      simp only [Option.some_bind] at h
      exact h3 (u, l) (findAssoc_mem hu) (v, s) (findAssoc_mem h)
  have hvalsym : ∀ u v, g.valOf u v = g.valOf v u := by
    intro u v
    rcases hx : g.valOf u v with _ | s
    · rcases hy : g.valOf v u with _ | s
      · rfl
      · have := hkey v u s hy
        rw [hx] at this
        exact absurd this (by simp)
    · exact (hkey u v s hx).symm
  have hEsym : ∀ u v, g.hasEdgeB u v = g.hasEdgeB v u := by
    intro u v
    unfold AdjGraph.hasEdgeB
    rw [hvalsym u v]
  have hsVal : ∀ u v, signVal g u v = signVal g v u := by
    intro u v
    unfold signVal
    rw [hvalsym u v]
  have hNoSelf : ∀ u, g.hasEdgeB u u = false := by
    intro u
    unfold AdjGraph.hasEdgeB AdjGraph.valOf
    rcases hu : findAssoc u g.adj with _ | l
    · rfl
    · simp only [Option.some_bind]
      have : u ∉ l.map Prod.fst := h4 (u, l) (findAssoc_mem hu)
      rw [← findAssoc_eq_none_iff] at this
      rw [this]
      rfl
  have hclosure : ∀ u v, v ∈ g.nbrs u → v ∈ g.nodes := by
    intro u v hv
    unfold AdjGraph.nbrs at hv
    rcases hu : findAssoc u g.adj with _ | l
    · rw [hu] at hv
      simp at hv
    · rw [hu] at hv
      rcases List.mem_map.mp hv with ⟨vs, hvs, hfst⟩
      rw [← hfst]
      exact h6 (u, l) (findAssoc_mem hu) vs hvs
  have hpm : ∀ u v, g.hasEdgeB u v = true →
      signVal g u v = 1 ∨ signVal g u v = -1 := by
    intro u v h
    unfold AdjGraph.hasEdgeB at h
    rcases hx : g.valOf u v with _ | s
    · rw [hx] at h
      simp at h
    · unfold signVal
      rw [hx]
      unfold AdjGraph.valOf at hx
      rcases hu : findAssoc u g.adj with _ | l
      · rw [hu] at hx
        simp at hx
      · rw [hu] at hx
        simp only [Option.some_bind] at hx
        simpa using h7 (u, l) (findAssoc_mem hu) (v, s) (findAssoc_mem hx)
  have hne_root : ∀ v, g.hasEdgeB root v = true → v ≠ root := by
    intro v h he
    rw [he, hNoSelf root] at h
    exact Bool.false_ne_true h
  have hswap : ∀ v w, isFrust g root v w = isFrust g root w v := by
    intro v w
    unfold isFrust
    rw [hsVal v w]
    apply decide_eq_decide.mpr
    constructor
    · rintro ⟨hp, hs⟩
      refine ⟨?_, by omega⟩
      rw [show signVal g root w * signVal g root v = signVal g root v * signVal g root w
        from mul_comm _ _]
      exact hp
    · rintro ⟨hp, hs⟩
      refine ⟨?_, by omega⟩
      rw [show signVal g root v * signVal g root w = signVal g root w * signVal g root v
        from mul_comm _ _]
      exact hp
  have hfr : ∀ v w, isFrust g root (sortPair v w).1 (sortPair v w).2 =
      isFrust g root v w := by
    intro v w
    rcases sortPair_eq_or v w with h | h <;> rw [h]
    exact hswap w v
  have hfrust_cond : ∀ v w, g.hasEdgeB root v = true → g.hasEdgeB root w = true →
      g.hasEdgeB v w = true →
      (isFrust g root v w = true ↔
        frustSpec (signVal g root v) (signVal g root w) (signVal g v w)) := by
    intro v w e1 e2 e3
    unfold isFrust
    rw [decide_eq_true_eq]
    exact frust_iff _ _ _ (hpm root v e1) (hpm root w e2) (hpm v w e3)
  have hmemAB : ∀ p : String × String,
      p ∈ (newFirsts ((localCandidates g root).map (fun q => sortPair q.1 q.2))
        []).filter (fun p => isFrust g root p.1 p.2) ↔
        p ∈ bruteFrustratedPairs g root := by
    intro p
    rw [List.mem_filter, mem_newFirsts, bruteFrustratedPairs, List.mem_filter]
    constructor
    · rintro ⟨⟨hmap, _⟩, hfp⟩
      rcases List.mem_map.mp hmap with ⟨q, hq, hspq⟩
      rw [mem_localCandidates] at hq
      rcases hq with ⟨hc1, hc2, hc3, hc4, hc5⟩
      have hrv : g.hasEdgeB root q.1 = true := (mem_nbrs_iff_hasEdge g root q.1).mp hc1
      have hvw : g.hasEdgeB q.1 q.2 = true := (mem_nbrs_iff_hasEdge g q.1 q.2).mp hc2
      have hq1r : q.1 ≠ root := hne_root q.1 hrv
      have hn1 : q.1 ∈ g.nodes := hclosure root q.1 hc1
      have hn2 : q.2 ∈ g.nodes := hclosure q.1 q.2 hc2
      constructor
      · rcases pairs2_complete g.nodes q.1 q.2 hn1 hn2 (fun he => hc4 he.symm) with
          hp2 | hp2
        · exact List.mem_map.mpr ⟨(q.1, q.2), hp2, hspq⟩
        · refine List.mem_map.mpr ⟨(q.2, q.1), hp2, ?_⟩
          show sortPair q.2 q.1 = p
          rw [sortPair_comm]
          exact hspq
      · rw [decide_eq_true_eq]
        rcases sortPair_eq_or q.1 q.2 with hx | hx <;> rw [hspq] at hx <;>
          rw [hx] at hfp ⊢
        · exact ⟨hq1r, hc3, hrv, hc5, hvw,
            (hfrust_cond q.1 q.2 hrv hc5 hvw).mp hfp⟩
        · have hE21 : g.hasEdgeB q.2 q.1 = true := (hEsym q.2 q.1).trans hvw
          exact ⟨hc3, hq1r, hc5, hrv, hE21,
            (hfrust_cond q.2 q.1 hc5 hrv hE21).mp hfp⟩
    · rintro ⟨hmap, hcond⟩
      rw [decide_eq_true_eq] at hcond
      rcases hcond with ⟨cp1, cp2, e1, e2, e3, fs⟩
      rcases List.mem_map.mp hmap with ⟨q, hq, hspq⟩
      have hne12 : p.1 ≠ p.2 := by
        have hqq := pairs2_ne _ h1 q hq
        rcases sortPair_eq_or q.1 q.2 with hx | hx <;> rw [hspq] at hx <;> rw [hx]
        · exact hqq
        · exact fun he => hqq he.symm
      refine ⟨⟨?_, List.not_mem_nil p⟩, (hfrust_cond p.1 p.2 e1 e2 e3).mpr fs⟩
      refine List.mem_map.mpr ⟨(p.1, p.2), ?_, ?_⟩
      · rw [mem_localCandidates]
        exact ⟨(mem_nbrs_iff_hasEdge g root p.1).mpr e1,
          (mem_nbrs_iff_hasEdge g p.1 p.2).mpr e3, cp2,
          fun he => hne12 he.symm, e2⟩
      · show sortPair p.1 p.2 = p
        rw [← hspq, sortPair_idem]
  unfold find_frustrated_triangles
  rw [if_neg (not_not_intro h5)]
  by_cases hlen : (g.nbrs root).length < 2
  · rw [if_pos hlen]
    have hb : bruteFrustratedPairs g root = [] := by
      rw [List.eq_nil_iff_forall_not_mem]
      intro p hp
      rw [bruteFrustratedPairs, List.mem_filter] at hp
      rcases hp with ⟨hmap, hcond⟩
      rw [decide_eq_true_eq] at hcond
      rcases List.mem_map.mp hmap with ⟨q, hq, hspq⟩
      have hne12 : p.1 ≠ p.2 := by
        have hqq := pairs2_ne _ h1 q hq
        rcases sortPair_eq_or q.1 q.2 with hx | hx <;> rw [hspq] at hx <;> rw [hx]
        · exact hqq
        · exact fun he => hqq he.symm
      have hm1 : p.1 ∈ g.nbrs root :=
        (mem_nbrs_iff_hasEdge g root p.1).mpr hcond.2.2.1
      have hm2 : p.2 ∈ g.nbrs root :=
        (mem_nbrs_iff_hasEdge g root p.2).mpr hcond.2.2.2.1
      have := two_le_length_of_two_mem _ _ _ hm1 hm2 hne12
      omega
    rw [hb]
    rfl
  · rw [if_neg hlen]
    rw [localLoop_count g root limit hfr (localCandidates g root) [] ⟨0, []⟩]
    rw [show (⟨0, []⟩ : LocalSearchResult).frustratedCount = 0 from rfl, Nat.zero_add,
      List.countP_eq_length_filter]
    exact List.Perm.length_eq
      ((List.perm_ext_iff_of_nodup
        (List.Nodup.filter _ (nodup_newFirsts _ _))
        (List.Nodup.filter _ (nodup_map_sortPair_pairs2 g.nodes h1))).mpr hmemAB)

/-- Witness for C5 at a concrete graph (one frustrated triangle through the
root) with print limit 20. -/
theorem c5_local_search_counts_all_witness :
    (find_frustrated_triangles gFrustrated "r" 20).frustratedCount =
      (bruteFrustratedPairs gFrustrated "r").length :=
  c5_local_search_counts_all gFrustrated "r" 20 (by decide) (by decide) (by decide)
    (by decide) (by decide) (by decide)
